import Mathlib

/-!
# Verification of the SuperClaude-Cursor bridge optimized execution subsystem

Shallow embedding of the repository's optimized execution subsystem:
the NDJSON streaming parser (`src/json-protocol.js`, `JSONProtocolHandler.parseBuffer`),
the TTL/LRU result cache (`src/result-cache.js`, `ResultCache`),
the progress tracker (`src/progress-manager.js`, `ProgressManager`),
and the cancellation wiring of the orchestrator
(`src/optimized-command-bridge.js`, `OptimizedCommandBridge.executeCommand`).

Strings are modelled as lists of natural numbers (code points / UTF-16 units),
byte buffers as lists of naturals below 256, timestamps as naturals (ms),
and JavaScript numbers, where special values matter, as an inductive type
with NaN and infinities over exact rationals.
-/

namespace Bridge

/-! ## JavaScript string primitives (modelled from the ECMAScript builtins) -/

/-- Code points counted as WhiteSpace or LineTerminator by ECMAScript
`String.prototype.trim` (the set used by `arg.trim()` and `line.trim()`). -/
def jsWhitespace : List Nat :=
  [0x09, 0x0A, 0x0B, 0x0C, 0x0D, 0x20, 0xA0, 0x1680,
   0x2000, 0x2001, 0x2002, 0x2003, 0x2004, 0x2005, 0x2006, 0x2007,
   0x2008, 0x2009, 0x200A, 0x2028, 0x2029, 0x202F, 0x205F, 0x3000, 0xFEFF]

def isJsWhitespace (c : Nat) : Bool := jsWhitespace.contains c

/-- Models `String.prototype.trim`: drop whitespace from both ends. -/
def jsTrim (s : List Nat) : List Nat :=
  (s.dropWhile isJsWhitespace).rdropWhile isJsWhitespace

/-- Models `String.prototype.toLowerCase` on the ASCII range (the only case
mapping exercised by the claims; other code points are left unchanged). -/
def jsToLower (s : List Nat) : List Nat :=
  s.map fun c => if 65 ≤ c ∧ c ≤ 90 then c + 32 else c

/-- Lexicographic comparison of strings by code unit, the default
`Array.prototype.sort` comparator on strings (`a < b`). -/
def strLe : List Nat → List Nat → Bool
  | [], _ => true
  | _ :: _, [] => false
  | a :: as, b :: bs => if a < b then true else if b < a then false else strLe as bs

theorem dropWhile_jsTrim :
    ∀ s : List Nat, (jsTrim s).dropWhile isJsWhitespace = jsTrim s := by
  intro s
  unfold jsTrim
  set m := s.dropWhile isJsWhitespace with hm
  have hmm : m.dropWhile isJsWhitespace = m := by
    rw [hm]; exact List.dropWhile_idempotent isJsWhitespace s
  obtain ⟨t, ht⟩ := List.rdropWhile_prefix isJsWhitespace m
  cases hr : m.rdropWhile isJsWhitespace with
  | nil => simp
  | cons b r' =>
    rw [hr] at ht
    have hb : ¬ (isJsWhitespace b = true) := by
      rw [← ht] at hmm
      intro hcontra
      rw [List.cons_append, List.dropWhile_cons_of_pos hcontra] at hmm
      have hlen := congrArg List.length hmm
      have hd := (List.dropWhile_suffix (l := r' ++ t) isJsWhitespace).length_le
      simp at hlen
      simp at hd
      omega
    simp [List.dropWhile_cons_of_neg hb]

theorem jsTrim_idem (s : List Nat) : jsTrim (jsTrim s) = jsTrim s := by
  have h := dropWhile_jsTrim s
  show ((jsTrim s).dropWhile isJsWhitespace).rdropWhile isJsWhitespace = jsTrim s
  rw [h]
  show ((s.dropWhile isJsWhitespace).rdropWhile isJsWhitespace).rdropWhile isJsWhitespace
      = jsTrim s
  exact List.rdropWhile_idempotent isJsWhitespace _

theorem strLe_total (a b : List Nat) : strLe a b = true ∨ strLe b a = true := by
  induction a generalizing b with
  | nil => left; rfl
  | cons x as ih =>
    match b with
    | [] => right; rfl
    | y :: bs =>
      rcases Nat.lt_trichotomy x y with h | h | h
      · left; simp [strLe, h]
      · subst h
        rcases ih bs with hh | hh
        · left; simpa [strLe] using hh
        · right; simpa [strLe] using hh
      · right; simp [strLe, h]

theorem strLe_antisymm {a b : List Nat} (h1 : strLe a b = true) (h2 : strLe b a = true) :
    a = b := by
  induction a generalizing b with
  | nil =>
    match b with
    | [] => rfl
    | y :: bs => simp [strLe] at h2
  | cons x as ih =>
    match b with
    | [] => simp [strLe] at h1
    | y :: bs =>
      rcases Nat.lt_trichotomy x y with h | h | h
      · exfalso
        have : ¬ y < x := Nat.lt_asymm h
        simp [strLe, this, Nat.ne_of_lt' h] at h2
        omega
      · subst h
        simp only [strLe, Nat.lt_irrefl, if_false] at h1 h2
        rw [ih h1 h2]
      · exfalso
        have : ¬ x < y := Nat.lt_asymm h
        simp [strLe, this] at h1
        omega

/-! ## UTF-8 encoding and incremental decoding

`JSONProtocolHandler` (src/json-protocol.js) decodes incoming byte buffers
with Node's `StringDecoder('utf8')`, which buffers the trailing bytes of a
character split across chunks.  We model bytes as naturals below 256 and
strings as lists of code points.  The decoder below processes the buffered
pending bytes concatenated with the new chunk, emits every complete
character, and retains a trailing incomplete (but so far valid) character
prefix as the new pending state; on bytes that can no longer begin or
continue a valid character it emits U+FFFD and resynchronises, approximating
Node's replacement behaviour (the claims below only exercise valid UTF-8).
-/

/-- A valid Unicode scalar value (encodable in UTF-8). -/
def ValidCP (c : Nat) : Prop := c < 0x110000 ∧ ¬(0xD800 ≤ c ∧ c < 0xE000)

instance (c : Nat) : Decidable (ValidCP c) := by unfold ValidCP; infer_instance

/-- UTF-8 encoding of a single scalar value. -/
def utf8EncodeChar (c : Nat) : List Nat :=
  if c < 0x80 then [c]
  else if c < 0x800 then [0xC0 + c / 64, 0x80 + c % 64]
  else if c < 0x10000 then [0xE0 + c / 4096, 0x80 + c / 64 % 64, 0x80 + c % 64]
  else [0xF0 + c / 262144, 0x80 + c / 4096 % 64, 0x80 + c / 64 % 64, 0x80 + c % 64]

/-- UTF-8 encoding of a string of scalar values; `Buffer.byteLength(s, 'utf8')`
is `(utf8Encode s).length`. -/
def utf8Encode (s : List Nat) : List Nat := s.flatMap utf8EncodeChar

/-- Models `Buffer.byteLength(s, 'utf8')`. -/
def utf8Len (s : List Nat) : Nat := (utf8Encode s).length

/-- A UTF-8 continuation byte. -/
def isCont (b : Nat) : Bool := 0x80 ≤ b && b < 0xC0

/-- Lower bound for the second byte of a 3- or 4-byte sequence headed by `b`. -/
def cont1Lo (b : Nat) : Nat := if b = 0xE0 then 0xA0 else if b = 0xF0 then 0x90 else 0x80

/-- Upper bound (inclusive) for the second byte of a 3- or 4-byte sequence. -/
def cont1Hi (b : Nat) : Nat := if b = 0xED then 0x9F else if b = 0xF4 then 0x8F else 0xBF

/-- Valid second byte for a 3- or 4-byte sequence headed by `b`. -/
def isCont1 (b c : Nat) : Bool := cont1Lo b ≤ c && c ≤ cont1Hi b

/-- Greedy incremental UTF-8 decode: returns the decoded code points and the
retained trailing bytes (an incomplete valid character prefix). -/
def utf8DecodeGreedy : List Nat → List Nat × List Nat
  | [] => ([], [])
  | b :: bs =>
    if b < 0x80 then
      let r := utf8DecodeGreedy bs
      (b :: r.1, r.2)
    else if 0xC2 ≤ b && b ≤ 0xDF then
      match bs with
      | [] => ([], [b])
      | c1 :: rest =>
        if isCont c1 then
          let r := utf8DecodeGreedy rest
          (((b - 0xC0) * 64 + (c1 - 0x80)) :: r.1, r.2)
        else
          let r := utf8DecodeGreedy (c1 :: rest)
          (0xFFFD :: r.1, r.2)
    else if 0xE0 ≤ b && b ≤ 0xEF then
      match bs with
      | [] => ([], [b])
      | c1 :: rest1 =>
        if isCont1 b c1 then
          match rest1 with
          | [] => ([], [b, c1])
          | c2 :: rest =>
            if isCont c2 then
              let r := utf8DecodeGreedy rest
              (((b - 0xE0) * 4096 + (c1 - 0x80) * 64 + (c2 - 0x80)) :: r.1, r.2)
            else
              let r := utf8DecodeGreedy (c2 :: rest)
              (0xFFFD :: r.1, r.2)
        else
          let r := utf8DecodeGreedy (c1 :: rest1)
          (0xFFFD :: r.1, r.2)
    else if 0xF0 ≤ b && b ≤ 0xF4 then
      match bs with
      | [] => ([], [b])
      | c1 :: rest1 =>
        if isCont1 b c1 then
          match rest1 with
          | [] => ([], [b, c1])
          | c2 :: rest2 =>
            if isCont c2 then
              match rest2 with
              | [] => ([], [b, c1, c2])
              | c3 :: rest =>
                if isCont c3 then
                  let r := utf8DecodeGreedy rest
                  (((b - 0xF0) * 262144 + (c1 - 0x80) * 4096 + (c2 - 0x80) * 64
                      + (c3 - 0x80)) :: r.1, r.2)
                else
                  let r := utf8DecodeGreedy (c3 :: rest)
                  (0xFFFD :: r.1, r.2)
            else
              let r := utf8DecodeGreedy (c2 :: rest2)
              (0xFFFD :: r.1, r.2)
        else
          let r := utf8DecodeGreedy (c1 :: rest1)
          (0xFFFD :: r.1, r.2)
    else
      let r := utf8DecodeGreedy bs
      (0xFFFD :: r.1, r.2)
termination_by l => l.length
decreasing_by all_goals simp_arith [*]

theorem utf8DecodeGreedy_encodeChar (c : Nat) (h : ValidCP c) (rest : List Nat) :
    utf8DecodeGreedy (utf8EncodeChar c ++ rest)
      = (c :: (utf8DecodeGreedy rest).1, (utf8DecodeGreedy rest).2) := by
  obtain ⟨h1, h2⟩ := h
  by_cases hc1 : c < 0x80
  · rw [utf8EncodeChar, if_pos hc1]
    rw [List.cons_append, List.nil_append, utf8DecodeGreedy.eq_def]
    simp only [if_pos hc1]
  · by_cases hc2 : c < 0x800
    · rw [utf8EncodeChar, if_neg hc1, if_pos hc2]
      rw [List.cons_append, List.cons_append, List.nil_append, utf8DecodeGreedy.eq_def]
      have hb1 : ¬ (0xC0 + c / 64 < 0x80) := by omega
      have hb2 : (0xC2 ≤ 0xC0 + c / 64 && 0xC0 + c / 64 ≤ 0xDF) = true := by
        simp; omega
      have hco : isCont (0x80 + c % 64) = true := by simp [isCont]; omega
      simp only [hb1, if_false, hb2, if_true, hco]
      have hv : (0xC0 + c / 64 - 0xC0) * 64 + (0x80 + c % 64 - 0x80) = c := by omega
      rw [hv]
    · by_cases hc3 : c < 0x10000
      · rw [utf8EncodeChar, if_neg hc1, if_neg hc2, if_pos hc3]
        rw [List.cons_append, List.cons_append, List.cons_append, List.nil_append,
          utf8DecodeGreedy.eq_def]
        have hb1 : ¬ (0xE0 + c / 4096 < 0x80) := by omega
        have hb2 : (0xC2 ≤ 0xE0 + c / 4096 && 0xE0 + c / 4096 ≤ 0xDF) = false := by
          simp; omega
        have hb3 : (0xE0 ≤ 0xE0 + c / 4096 && 0xE0 + c / 4096 ≤ 0xEF) = true := by
          simp; omega
        have hco1 : isCont1 (0xE0 + c / 4096) (0x80 + c / 64 % 64) = true := by
          simp only [isCont1, cont1Lo, cont1Hi]
          have hd : c / 4096 ≤ 15 := by omega
          by_cases he0 : c / 4096 = 0
          · have : ¬ (0xE0 + c / 4096 = 0xF0) := by omega
            simp [he0]
            omega
          · by_cases hed : c / 4096 = 13
            · have hsur : c < 0xD800 ∨ 0xE000 ≤ c := by omega
              simp [hed]
              omega
            · have hn1 : ¬ (0xE0 + c / 4096 = 0xE0) := by omega
              have hn2 : ¬ (0xE0 + c / 4096 = 0xF0) := by omega
              have hn3 : ¬ (0xE0 + c / 4096 = 0xED) := by omega
              have hn4 : ¬ (0xE0 + c / 4096 = 0xF4) := by omega
              simp [hn1, hn2, hn3, hn4]
              omega
        have hco2 : isCont (0x80 + c % 64) = true := by simp [isCont]; omega
        simp only [hb1, if_false, hb2, Bool.false_eq_true, hb3, if_true, hco1, hco2]
        have hv : (0xE0 + c / 4096 - 0xE0) * 4096 + (0x80 + c / 64 % 64 - 0x80) * 64
            + (0x80 + c % 64 - 0x80) = c := by omega
        rw [hv]
      · rw [utf8EncodeChar, if_neg hc1, if_neg hc2, if_neg hc3]
        rw [List.cons_append, List.cons_append, List.cons_append, List.cons_append,
          List.nil_append, utf8DecodeGreedy.eq_def]
        have hb1 : ¬ (0xF0 + c / 262144 < 0x80) := by omega
        have hb2 : (0xC2 ≤ 0xF0 + c / 262144 && 0xF0 + c / 262144 ≤ 0xDF) = false := by
          simp; omega
        have hb3 : (0xE0 ≤ 0xF0 + c / 262144 && 0xF0 + c / 262144 ≤ 0xEF) = false := by
          simp; omega
        have hb4 : (0xF0 ≤ 0xF0 + c / 262144 && 0xF0 + c / 262144 ≤ 0xF4) = true := by
          simp; omega
        have hco1 : isCont1 (0xF0 + c / 262144) (0x80 + c / 4096 % 64) = true := by
          simp only [isCont1, cont1Lo, cont1Hi]
          have hd : c / 262144 ≤ 4 := by omega
          by_cases hf0 : c / 262144 = 0
          · have hne : ¬ (0xF0 + c / 262144 = 0xE0) := by omega
            have hnd : ¬ (0xF0 + c / 262144 = 0xED) := by omega
            simp [hf0]
            omega
          · by_cases hf4 : c / 262144 = 4
            · simp [hf4]
              omega
            · have hn1 : ¬ (0xF0 + c / 262144 = 0xE0) := by omega
              have hn2 : ¬ (0xF0 + c / 262144 = 0xF0) := by omega
              have hn3 : ¬ (0xF0 + c / 262144 = 0xED) := by omega
              have hn4 : ¬ (0xF0 + c / 262144 = 0xF4) := by omega
              simp [hn1, hn2, hn3, hn4]
              omega
        have hco2 : isCont (0x80 + c / 64 % 64) = true := by simp [isCont]; omega
        have hco3 : isCont (0x80 + c % 64) = true := by simp [isCont]; omega
        simp only [hb1, if_false, hb2, hb3, Bool.false_eq_true, hb4, if_true,
          hco1, hco2, hco3]
        have hv : (0xF0 + c / 262144 - 0xF0) * 262144 + (0x80 + c / 4096 % 64 - 0x80) * 4096
            + (0x80 + c / 64 % 64 - 0x80) * 64 + (0x80 + c % 64 - 0x80) = c := by omega
        rw [hv]

theorem utf8DecodeGreedy_nil : utf8DecodeGreedy [] = ([], []) := by
  rw [utf8DecodeGreedy.eq_def]

theorem utf8DecodeGreedy_encode (cs : List Nat) (hv : ∀ c ∈ cs, ValidCP c) :
    utf8DecodeGreedy (utf8Encode cs) = (cs, []) := by
  induction cs with
  | nil => exact utf8DecodeGreedy_nil
  | cons c cs' ih =>
    have hc : ValidCP c := hv c (by simp)
    have hcs' : ∀ x ∈ cs', ValidCP x := fun x hx => hv x (by simp [hx])
    show utf8DecodeGreedy (utf8EncodeChar c ++ utf8Encode cs') = _
    rw [utf8DecodeGreedy_encodeChar c hc, ih hcs']

/-- A strict prefix of a single character's encoding is wholly retained as
pending bytes by the incremental decoder. -/
theorem utf8DecodeGreedy_strictPrefix (c : Nat) (hc : ValidCP c) (pfx t : List Nat)
    (hsplit : pfx ++ t = utf8EncodeChar c) (ht : t ≠ []) :
    utf8DecodeGreedy pfx = ([], pfx) := by
  obtain ⟨h1, h2⟩ := hc
  by_cases hc1 : c < 0x80
  · rw [utf8EncodeChar, if_pos hc1] at hsplit
    match pfx, t, hsplit with
    | [], [_], _ => exact utf8DecodeGreedy_nil
    | [_], [], h => exact absurd rfl ht
  · by_cases hc2 : c < 0x800
    · rw [utf8EncodeChar, if_neg hc1, if_pos hc2] at hsplit
      match pfx, t, hsplit with
      | [], _, _ => exact utf8DecodeGreedy_nil
      | [x], [y], h =>
        have hx : x = 0xC0 + c / 64 := by injection h
        subst hx
        rw [utf8DecodeGreedy.eq_def]
        have hb1 : ¬ (0xC0 + c / 64 < 0x80) := by omega
        have hb2 : (0xC2 ≤ 0xC0 + c / 64 && 0xC0 + c / 64 ≤ 0xDF) = true := by
          simp; omega
        simp only [hb1, if_false, hb2, if_true]
      | [_, _], [], h => exact absurd rfl ht
    · by_cases hc3 : c < 0x10000
      · rw [utf8EncodeChar, if_neg hc1, if_neg hc2, if_pos hc3] at hsplit
        have hb1 : ¬ (0xE0 + c / 4096 < 0x80) := by omega
        have hb2 : (0xC2 ≤ 0xE0 + c / 4096 && 0xE0 + c / 4096 ≤ 0xDF) = false := by
          simp; omega
        have hb3 : (0xE0 ≤ 0xE0 + c / 4096 && 0xE0 + c / 4096 ≤ 0xEF) = true := by
          simp; omega
        have hco1 : isCont1 (0xE0 + c / 4096) (0x80 + c / 64 % 64) = true := by
          simp only [isCont1, cont1Lo, cont1Hi]
          by_cases he0 : c / 4096 = 0
          · have : ¬ (0xE0 + c / 4096 = 0xF0) := by omega
            simp [he0]
            omega
          · by_cases hed : c / 4096 = 13
            · simp [hed]
              omega
            · have hn1 : ¬ (0xE0 + c / 4096 = 0xE0) := by omega
              have hn2 : ¬ (0xE0 + c / 4096 = 0xF0) := by omega
              have hn3 : ¬ (0xE0 + c / 4096 = 0xED) := by omega
              have hn4 : ¬ (0xE0 + c / 4096 = 0xF4) := by omega
              simp [hn1, hn2, hn3, hn4]
              omega
        match pfx, t, hsplit with
        | [], _, _ => exact utf8DecodeGreedy_nil
        | [x], _ :: _, h =>
          have hx : x = 0xE0 + c / 4096 := by injection h
          subst hx
          rw [utf8DecodeGreedy.eq_def]
          simp only [hb1, if_false, hb2, Bool.false_eq_true, hb3, if_true]
        | [x, y], [_], h =>
          have hx : x = 0xE0 + c / 4096 := by injection h
          have hy : y = 0x80 + c / 64 % 64 := by
            have hd := congrArg (List.drop 1) h
            simp at hd
            exact hd.1
          subst hx; subst hy
          rw [utf8DecodeGreedy.eq_def]
          simp only [hb1, if_false, hb2, Bool.false_eq_true, hb3, if_true, hco1]
        | [_, _, _], [], h => exact absurd rfl ht
      · rw [utf8EncodeChar, if_neg hc1, if_neg hc2, if_neg hc3] at hsplit
        have hb1 : ¬ (0xF0 + c / 262144 < 0x80) := by omega
        have hb2 : (0xC2 ≤ 0xF0 + c / 262144 && 0xF0 + c / 262144 ≤ 0xDF) = false := by
          simp; omega
        have hb3 : (0xE0 ≤ 0xF0 + c / 262144 && 0xF0 + c / 262144 ≤ 0xEF) = false := by
          simp; omega
        have hb4 : (0xF0 ≤ 0xF0 + c / 262144 && 0xF0 + c / 262144 ≤ 0xF4) = true := by
          simp; omega
        have hco1 : isCont1 (0xF0 + c / 262144) (0x80 + c / 4096 % 64) = true := by
          simp only [isCont1, cont1Lo, cont1Hi]
          by_cases hf0 : c / 262144 = 0
          · have hne : ¬ (0xF0 + c / 262144 = 0xE0) := by omega
            have hnd : ¬ (0xF0 + c / 262144 = 0xED) := by omega
            simp [hf0]
            omega
          · by_cases hf4 : c / 262144 = 4
            · simp [hf4]
              omega
            · have hn1 : ¬ (0xF0 + c / 262144 = 0xE0) := by omega
              have hn2 : ¬ (0xF0 + c / 262144 = 0xF0) := by omega
              have hn3 : ¬ (0xF0 + c / 262144 = 0xED) := by omega
              have hn4 : ¬ (0xF0 + c / 262144 = 0xF4) := by omega
              simp [hn1, hn2, hn3, hn4]
              omega
        have hco2 : isCont (0x80 + c / 64 % 64) = true := by simp [isCont]; omega
        match pfx, t, hsplit with
        | [], _, _ => exact utf8DecodeGreedy_nil
        | [x], _ :: _, h =>
          have hx : x = 0xF0 + c / 262144 := by injection h
          subst hx
          rw [utf8DecodeGreedy.eq_def]
          simp only [hb1, if_false, hb2, hb3, Bool.false_eq_true, hb4, if_true]
        | [x, y], _ :: _, h =>
          have hx : x = 0xF0 + c / 262144 := by injection h
          have hy : y = 0x80 + c / 4096 % 64 := by
            have hd := congrArg (List.drop 1) h
            simp at hd
            exact hd.1
          subst hx; subst hy
          rw [utf8DecodeGreedy.eq_def]
          simp only [hb1, if_false, hb2, hb3, Bool.false_eq_true, hb4, if_true, hco1]
        | [x, y, z], [_], h =>
          have hx : x = 0xF0 + c / 262144 := by injection h
          have hy : y = 0x80 + c / 4096 % 64 := by
            have hd := congrArg (List.drop 1) h
            simp at hd
            exact hd.1
          have hz : z = 0x80 + c / 64 % 64 := by
            have hd := congrArg (List.drop 2) h
            simp at hd
            exact hd.1
          subst hx; subst hy; subst hz
          rw [utf8DecodeGreedy.eq_def]
          simp only [hb1, if_false, hb2, hb3, Bool.false_eq_true, hb4, if_true,
            hco1, hco2]
        | [_, _, _, _], [], h => exact absurd rfl ht

/-- Splitting the UTF-8 encoding of a valid string at an arbitrary byte
offset: the first half decodes to a prefix of the string plus retained
pending bytes, and the pending bytes followed by the second half form
exactly the encoding of the remaining suffix. -/
theorem utf8DecodeGreedy_split :
    ∀ (cs : List Nat), (∀ c ∈ cs, ValidCP c) →
    ∀ b1 b2, utf8Encode cs = b1 ++ b2 →
    ∃ cs1 cs2 p, cs = cs1 ++ cs2 ∧
      utf8DecodeGreedy b1 = (cs1, p) ∧
      utf8Encode cs1 ++ p = b1 ∧
      p ++ b2 = utf8Encode cs2 := by
  intro cs
  induction cs with
  | nil =>
    intro _ b1 b2 hsplit
    have hb1 : b1 = [] := by
      have := congrArg List.length hsplit
      simp [utf8Encode] at this
      exact List.eq_nil_of_length_eq_zero (by omega)
    have hb2 : b2 = [] := by
      have := congrArg List.length hsplit
      simp [utf8Encode, hb1] at this
      exact List.eq_nil_of_length_eq_zero (by omega)
    subst hb1; subst hb2
    exact ⟨[], [], [], rfl, utf8DecodeGreedy_nil, rfl, rfl⟩
  | cons c cs' ih =>
    intro hv b1 b2 hsplit
    have hc : ValidCP c := hv c (by simp)
    have hcs' : ∀ x ∈ cs', ValidCP x := fun x hx => hv x (by simp [hx])
    have hsplit' : utf8EncodeChar c ++ utf8Encode cs' = b1 ++ b2 := hsplit
    rcases List.append_eq_append_iff.mp hsplit'.symm with ⟨t, hec, hb2⟩ | ⟨b1', hb1, henc⟩
    · -- b1 ++ t = utf8EncodeChar c (b1 within the first character)
      by_cases htnil : t = []
      · subst htnil
        have hb1ec : b1 = utf8EncodeChar c := by simpa using hec.symm
        subst hb1ec
        refine ⟨[c], cs', [], rfl, ?_, by simp [utf8Encode], by simpa using hb2⟩
        have h := utf8DecodeGreedy_encodeChar c hc []
        simpa [utf8DecodeGreedy_nil] using h
      · refine ⟨[], c :: cs', b1, rfl, ?_, by simp [utf8Encode], ?_⟩
        · exact utf8DecodeGreedy_strictPrefix c hc b1 t hec.symm htnil
        · rw [hb2]
          show b1 ++ (t ++ utf8Encode cs') = _
          rw [← List.append_assoc, hec.symm]
          rfl
    · -- b1 = utf8EncodeChar c ++ b1' (first character complete in b1)
      obtain ⟨cs1', cs2', p, hcs, hdec, hencp, hp2⟩ := ih hcs' b1' b2 henc
      refine ⟨c :: cs1', cs2', p, by rw [hcs]; simp, ?_, ?_, hp2⟩
      · rw [hb1, utf8DecodeGreedy_encodeChar c hc b1', hdec]
      · show utf8EncodeChar c ++ utf8Encode cs1' ++ p = b1
        rw [hb1, List.append_assoc, hencp]

/-! ## Line framing

`parseBuffer` splits the decoded text on `'\n'` (code point 10); all segments
but the last are complete candidate lines, the last is the retained
incomplete fragment (`aggregate.split('\n')` followed by `lines.pop()`).
-/

/-- Split a string into its complete newline-terminated lines and the
trailing fragment after the last newline. -/
def splitLines : List Nat → List (List Nat) × List Nat
  | [] => ([], [])
  | a :: xs =>
    let r := splitLines xs
    if a = 10 then ([] :: r.1, r.2)
    else
      match r with
      | ([], frag) => ([], a :: frag)
      | (l :: ls, frag) => ((a :: l) :: ls, frag)

/-- Rebuild the flat text from lines, appending `'\n'` to each line. -/
def joinNL (ls : List (List Nat)) : List Nat := ls.flatMap (· ++ [10])

theorem splitLines_reconstruct :
    ∀ xs : List Nat, joinNL (splitLines xs).1 ++ (splitLines xs).2 = xs := by
  intro xs
  induction xs with
  | nil => rfl
  | cons a xs ih =>
    by_cases ha : a = 10
    · subst ha
      show joinNL ([] :: (splitLines xs).1) ++ (splitLines xs).2 = _
      show ([] ++ [10]) ++ joinNL (splitLines xs).1 ++ (splitLines xs).2 = _
      simpa using ih
    · cases hr : splitLines xs with
      | mk lines frag =>
        rw [hr] at ih
        cases lines with
        | nil =>
          show joinNL (splitLines (a :: xs)).1 ++ (splitLines (a :: xs)).2 = _
          have : splitLines (a :: xs) = ([], a :: frag) := by
            rw [splitLines, hr]
            simp [ha]
          rw [this]
          simp [joinNL] at ih ⊢
          exact ih
        | cons l ls =>
          have : splitLines (a :: xs) = ((a :: l) :: ls, frag) := by
            rw [splitLines, hr]
            simp [ha]
          rw [this]
          simp [joinNL] at ih ⊢
          exact ih

theorem splitLines_append (xs ys : List Nat) :
    splitLines (xs ++ ys)
      = ((splitLines xs).1 ++ (splitLines ((splitLines xs).2 ++ ys)).1,
         (splitLines ((splitLines xs).2 ++ ys)).2) := by
  induction xs with
  | nil => simp [splitLines]
  | cons a xs ih =>
    by_cases ha : a = 10
    · subst ha
      show splitLines (10 :: (xs ++ ys)) = _
      rw [splitLines]
      simp only [if_pos rfl]
      rw [ih]
      have h10 : splitLines (10 :: xs) = ([] :: (splitLines xs).1, (splitLines xs).2) := by
        rw [splitLines]; simp
      rw [h10]
      simp
    · cases hr : splitLines xs with
      | mk lines frag =>
        cases lines with
        | nil =>
          have hx : splitLines (a :: xs) = ([], a :: frag) := by
            rw [splitLines, hr]; simp [ha]
          show splitLines (a :: (xs ++ ys)) = _
          rw [splitLines, ih, hr, hx]
          simp only [ha, if_false]
          conv_rhs => rw [splitLines.eq_def]
          simp [ha]
        | cons l ls =>
          have hx : splitLines (a :: xs) = ((a :: l) :: ls, frag) := by
            rw [splitLines, hr]; simp [ha]
          show splitLines (a :: (xs ++ ys)) = _
          rw [splitLines, ih, hr, hx]
          simp [ha]

theorem splitLines_joinNL (ls : List (List Nat)) (h : ∀ l ∈ ls, (10 : Nat) ∉ l) :
    splitLines (joinNL ls) = (ls, []) := by
  induction ls with
  | nil => rfl
  | cons l ls ih =>
    have hl : (10 : Nat) ∉ l := h l (by simp)
    have hls : ∀ x ∈ ls, (10 : Nat) ∉ x := fun x hx => h x (by simp [hx])
    show splitLines ((l ++ [10]) ++ joinNL ls) = _
    have step : ∀ (m : List Nat), (10 : Nat) ∉ m →
        splitLines ((m ++ [10]) ++ joinNL ls) = (m :: ls, []) := by
      intro m hm
      induction m with
      | nil =>
        show splitLines (10 :: joinNL ls) = _
        rw [splitLines]
        simp [ih hls]
      | cons a m ihm =>
        have ham : a ≠ 10 := by
          intro hc; exact hm (by simp [hc])
        have hm' : (10 : Nat) ∉ m := fun hc => hm (by simp [hc])
        show splitLines (a :: ((m ++ [10]) ++ joinNL ls)) = _
        rw [splitLines, ihm hm']
        simp [ham]
    exact step l hl

/-! ## `JSONProtocolHandler.parseBuffer` (src/json-protocol.js lines 28-68)

State: `_incompleteLine` (retained fragment), the decoder's pending bytes,
and `_bufferBytes` (the cumulative byte counter).  `JSON.parse` is modelled
by an arbitrary function `parse : List Nat → Option α`: a line on which it
returns `none` is malformed JSON (logged and skipped by the code); the
claims only depend on `JSON.parse` being a function of the line text.
-/

structure PConfig where
  maxMessageSize : Nat
  maxBufferSize : Nat
deriving DecidableEq, Repr

structure PState where
  incompleteLine : List Nat
  decPending : List Nat
  bufferBytes : Nat
deriving DecidableEq, Repr

/-- The state after construction / after an error reset: empty fragment,
fresh decoder, zero byte counter. -/
def PState.initial : PState := ⟨[], [], 0⟩

inductive PErr where
  | bufferLimit
  | msgSizeLimit
deriving DecidableEq, Repr

/-- What a single candidate line contributes: skipped when blank, skipped
when malformed, one message when parsed. -/
def lineStep (parse : List Nat → Option α) (l : List Nat) : Option α :=
  if jsTrim l = [] then none else parse l

/-- The per-line loop of `parseBuffer`: skip blank lines, raise
`msgSizeLimit` on a line whose UTF-8 byte length exceeds the limit, parse
the rest, skipping malformed lines. -/
def processLines (cfg : PConfig) (parse : List Nat → Option α) :
    List (List Nat) → Except PErr (List α)
  | [] => .ok []
  | l :: ls =>
    if jsTrim l = [] then processLines cfg parse ls
    else if utf8Len l > cfg.maxMessageSize then .error .msgSizeLimit
    else
      match parse l with
      | some v => (processLines cfg parse ls).map (v :: ·)
      | none => processLines cfg parse ls

/-- `JSONProtocolHandler.parseBuffer(data)`: check the cumulative byte
counter against `maxBufferSize` (on violation reset all state and throw);
decode the bytes with the incremental decoder; split the fragment plus
decoded chunk on newlines; process the complete lines (on a size violation
reset all state and throw); retain the trailing fragment and set the byte
counter to its UTF-8 byte length. -/
def parseBuffer (cfg : PConfig) (parse : List Nat → Option α) (st : PState)
    (data : List Nat) : Except PErr (List α) × PState :=
  let bb := st.bufferBytes + data.length
  if bb > cfg.maxBufferSize then (.error .bufferLimit, PState.initial)
  else
    let d := utf8DecodeGreedy (st.decPending ++ data)
    let aggregate := st.incompleteLine ++ d.1
    let sl := splitLines aggregate
    match processLines cfg parse sl.1 with
    | .error e => (.error e, PState.initial)
    | .ok msgs => (.ok msgs, ⟨sl.2, d.2, utf8Len sl.2⟩)

theorem processLines_ok {α : Type} (cfg : PConfig) (parse : List Nat → Option α)
    (ls : List (List Nat)) (h : ∀ l ∈ ls, utf8Len l ≤ cfg.maxMessageSize) :
    processLines cfg parse ls = .ok (ls.filterMap (lineStep parse)) := by
  induction ls with
  | nil => rfl
  | cons l ls ih =>
    have hl : utf8Len l ≤ cfg.maxMessageSize := h l (by simp)
    have hls : ∀ x ∈ ls, utf8Len x ≤ cfg.maxMessageSize := fun x hx => h x (by simp [hx])
    rw [processLines]
    by_cases hb : jsTrim l = []
    · rw [if_pos hb, ih hls]
      simp [lineStep, hb]
    · rw [if_neg hb, if_neg (by omega)]
      cases hp : parse l with
      | some v =>
        rw [ih hls]
        simp [lineStep, hb, hp, Except.map]
      | none =>
        rw [ih hls]
        simp [lineStep, hb, hp]

theorem utf8Encode_append (a b : List Nat) :
    utf8Encode (a ++ b) = utf8Encode a ++ utf8Encode b := by
  simp [utf8Encode]

theorem utf8Len_append (a b : List Nat) : utf8Len (a ++ b) = utf8Len a + utf8Len b := by
  simp [utf8Len, utf8Encode_append]

theorem parseBuffer_eval {α : Type} (cfg : PConfig) (parse : List Nat → Option α)
    (st : PState) (data : List Nat) (msgs : List α) (lines : List (List Nat))
    (frag d1 d2 : List Nat)
    (hbb : st.bufferBytes + data.length ≤ cfg.maxBufferSize)
    (hdec : utf8DecodeGreedy (st.decPending ++ data) = (d1, d2))
    (hsl : splitLines (st.incompleteLine ++ d1) = (lines, frag))
    (hpl : processLines cfg parse lines = .ok msgs) :
    parseBuffer cfg parse st data = (.ok msgs, ⟨frag, d2, utf8Len frag⟩) := by
  unfold parseBuffer
  rw [if_neg (by omega)]
  rw [hdec]
  simp only
  rw [hsl]
  simp only
  rw [hpl]

theorem parseBuffer_evalErr {α : Type} (cfg : PConfig) (parse : List Nat → Option α)
    (st : PState) (data : List Nat) (e : PErr) (lines : List (List Nat))
    (frag d1 d2 : List Nat)
    (hbb : st.bufferBytes + data.length ≤ cfg.maxBufferSize)
    (hdec : utf8DecodeGreedy (st.decPending ++ data) = (d1, d2))
    (hsl : splitLines (st.incompleteLine ++ d1) = (lines, frag))
    (hpl : processLines cfg parse lines = .error e) :
    parseBuffer cfg parse st data = (.error e, PState.initial) := by
  unfold parseBuffer
  rw [if_neg (by omega)]
  rw [hdec]
  simp only
  rw [hsl]
  simp only
  rw [hpl]

theorem parseBuffer_bufferLimit {α : Type} (cfg : PConfig) (parse : List Nat → Option α)
    (st : PState) (data : List Nat)
    (h : st.bufferBytes + data.length > cfg.maxBufferSize) :
    parseBuffer cfg parse st data = (.error .bufferLimit, PState.initial) := by
  unfold parseBuffer
  rw [if_pos h]

theorem validCP_joinNL {L : List (List Nat)}
    (hline : ∀ l ∈ L, ∀ c ∈ l, ValidCP c ∧ c ≠ 10) :
    ∀ c ∈ joinNL L, ValidCP c := by
  intro c hc
  simp only [joinNL, List.mem_flatMap] at hc
  obtain ⟨l, hl, hcl⟩ := hc
  rcases List.mem_append.mp hcl with h | h
  · exact (hline l hl c h).1
  · simp at h
    subst h
    constructor
    · omega
    · omega

/-- C2 — main split-invariance statement, with named components. -/
theorem parseBuffer_split_invariance {α : Type} (parse : List Nat → Option α)
    (cfg : PConfig) (L : List (List Nat)) (b1 b2 : List Nat)
    (hline : ∀ l ∈ L, ∀ c ∈ l, ValidCP c ∧ c ≠ 10)
    (hsize : ∀ l ∈ L, utf8Len l ≤ cfg.maxMessageSize)
    (hbuf : (utf8Encode (joinNL L)).length ≤ cfg.maxBufferSize)
    (hsplit : utf8Encode (joinNL L) = b1 ++ b2) :
    ∃ m1 m2,
      (parseBuffer cfg parse PState.initial b1).1 = .ok m1 ∧
      (parseBuffer cfg parse (parseBuffer cfg parse PState.initial b1).2 b2).1 = .ok m2 ∧
      (parseBuffer cfg parse PState.initial (b1 ++ b2)).1 = .ok (m1 ++ m2) ∧
      (parseBuffer cfg parse (parseBuffer cfg parse PState.initial b1).2 b2).2
        = (parseBuffer cfg parse PState.initial (b1 ++ b2)).2 := by
  have hv : ∀ c ∈ joinNL L, ValidCP c := validCP_joinNL hline
  have hno10 : ∀ l ∈ L, (10 : Nat) ∉ l := by
    intro l hl hc
    exact (hline l hl 10 hc).2 rfl
  have hlen : (b1 ++ b2).length = (utf8Encode (joinNL L)).length := by rw [hsplit]
  -- the whole-buffer run
  have hdecW : utf8DecodeGreedy (([] : List Nat) ++ (b1 ++ b2)) = (joinNL L, []) := by
    rw [List.nil_append, ← hsplit]
    exact utf8DecodeGreedy_encode _ hv
  have hslW : splitLines (([] : List Nat) ++ joinNL L) = (L, []) := by
    rw [List.nil_append]
    exact splitLines_joinNL L hno10
  have hplW := processLines_ok cfg parse L hsize
  have hwhole : parseBuffer cfg parse PState.initial (b1 ++ b2)
      = (.ok (L.filterMap (lineStep parse)), ⟨[], [], utf8Len []⟩) :=
    parseBuffer_eval cfg parse PState.initial (b1 ++ b2) _ L [] (joinNL L) []
      (by show (0 : Nat) + (b1 ++ b2).length ≤ cfg.maxBufferSize
          rw [hlen]
          omega) hdecW hslW hplW
  -- splitting the decode
  obtain ⟨cs1, cs2, p, hcseq, hdec1, hb1eq, hp2⟩ :=
    utf8DecodeGreedy_split (joinNL L) hv b1 b2 hsplit
  -- splitting the lines
  obtain ⟨L1, f, hsl1⟩ : ∃ L1 f, splitLines cs1 = (L1, f) :=
    ⟨(splitLines cs1).1, (splitLines cs1).2, rfl⟩
  have hslApp' : splitLines (joinNL L)
      = ((splitLines cs1).1 ++ (splitLines ((splitLines cs1).2 ++ cs2)).1,
         (splitLines ((splitLines cs1).2 ++ cs2)).2) := by
    rw [hcseq]
    exact splitLines_append cs1 cs2
  have hLparts : L = L1 ++ (splitLines (f ++ cs2)).1
      ∧ (splitLines (f ++ cs2)).2 = [] := by
    have h1 : splitLines (joinNL L) = (L, []) := splitLines_joinNL L hno10
    rw [h1, hsl1] at hslApp'
    simp at hslApp'
    exact ⟨hslApp'.1, hslApp'.2⟩
  obtain ⟨T1, hT2⟩ : ∃ T1, splitLines (f ++ cs2) = (T1, []) := by
    refine ⟨(splitLines (f ++ cs2)).1, ?_⟩
    have := hLparts.2
    cases hsp : splitLines (f ++ cs2) with
    | mk a b =>
      rw [hsp] at this
      simp at this
      simp [this]
  have hLeq : L = L1 ++ T1 := by
    have := hLparts.1
    rw [hT2] at this
    simpa using this
  -- sizes of the first-call and second-call lines
  have hsize1 : ∀ l ∈ L1, utf8Len l ≤ cfg.maxMessageSize := by
    intro l hl
    exact hsize l (by rw [hLeq]; exact List.mem_append.mpr (Or.inl hl))
  have hsizeT : ∀ l ∈ T1, utf8Len l ≤ cfg.maxMessageSize := by
    intro l hl
    exact hsize l (by rw [hLeq]; exact List.mem_append.mpr (Or.inr hl))
  -- first call
  have hbb1 : PState.initial.bufferBytes + b1.length ≤ cfg.maxBufferSize := by
    show (0 : Nat) + b1.length ≤ cfg.maxBufferSize
    have h2 : (b1 ++ b2).length = b1.length + b2.length := by simp
    omega
  have hcall1 : parseBuffer cfg parse PState.initial b1
      = (.ok (L1.filterMap (lineStep parse)), ⟨f, p, utf8Len f⟩) :=
    parseBuffer_eval cfg parse PState.initial b1 _ L1 f cs1 p hbb1
      (by simpa using hdec1) (by simpa using hsl1)
      (processLines_ok cfg parse L1 hsize1)
  -- second call: buffer bound
  have hcs1parts : joinNL L1 ++ f = cs1 := by
    have := splitLines_reconstruct cs1
    rw [hsl1] at this
    simpa using this
  have hfenc : utf8Len f ≤ utf8Len cs1 := by
    rw [← hcs1parts, utf8Len_append]
    omega
  have hb1len : b1.length = utf8Len cs1 + p.length := by
    have := congrArg List.length hb1eq
    simp [utf8Len] at this ⊢
    omega
  have hbb2 : utf8Len f + b2.length ≤ cfg.maxBufferSize := by
    have h2 : (b1 ++ b2).length = b1.length + b2.length := by simp
    omega
  -- second call: decode
  have hvcs2 : ∀ c ∈ cs2, ValidCP c := by
    intro c hc
    exact hv c (by rw [hcseq]; exact List.mem_append.mpr (Or.inr hc))
  have hdec2 : utf8DecodeGreedy (p ++ b2) = (cs2, []) := by
    rw [hp2]
    exact utf8DecodeGreedy_encode cs2 hvcs2
  have hcall2 : parseBuffer cfg parse (⟨f, p, utf8Len f⟩ : PState) b2
      = (.ok (T1.filterMap (lineStep parse)), ⟨[], [], utf8Len []⟩) :=
    parseBuffer_eval cfg parse ⟨f, p, utf8Len f⟩ b2 _ T1 [] cs2 [] hbb2 hdec2
      (by simpa using hT2) (processLines_ok cfg parse T1 hsizeT)
  refine ⟨L1.filterMap (lineStep parse), T1.filterMap (lineStep parse), ?_, ?_, ?_, ?_⟩
  · rw [hcall1]
  · rw [hcall1, hcall2]
  · rw [hwhole, hLeq, List.filterMap_append]
  · rw [hcall1, hcall2, hwhole]


/-- C2 witness — end-to-end scenario C: the stream
`'{"a":1}\n{"b":2'` + `'}\n'` (split inside the second message). -/
theorem parseBuffer_split_invariance_witness :
    ∃ m1 m2,
      (parseBuffer ⟨1024, 1024⟩ (fun l => some l) PState.initial
        [123,34,97,34,58,49,125,10,123,34,98,34,58,50]).1 = .ok m1 ∧
      (parseBuffer ⟨1024, 1024⟩ (fun l => some l)
        (parseBuffer ⟨1024, 1024⟩ (fun l => some l) PState.initial
          [123,34,97,34,58,49,125,10,123,34,98,34,58,50]).2 [125,10]).1 = .ok m2 ∧
      (parseBuffer ⟨1024, 1024⟩ (fun l => some l) PState.initial
        ([123,34,97,34,58,49,125,10,123,34,98,34,58,50] ++ [125,10])).1
        = .ok (m1 ++ m2) ∧
      (parseBuffer ⟨1024, 1024⟩ (fun l => some l)
        (parseBuffer ⟨1024, 1024⟩ (fun l => some l) PState.initial
          [123,34,97,34,58,49,125,10,123,34,98,34,58,50]).2 [125,10]).2
        = (parseBuffer ⟨1024, 1024⟩ (fun l => some l) PState.initial
        ([123,34,97,34,58,49,125,10,123,34,98,34,58,50] ++ [125,10])).2 :=
  parseBuffer_split_invariance (fun l => some l) ⟨1024, 1024⟩
    [[123,34,97,34,58,49,125], [123,34,98,34,58,50,125]]
    [123,34,97,34,58,49,125,10,123,34,98,34,58,50] [125,10]
    (by decide) (by decide) (by decide) (by decide)

/-- C8 (amended) — the cumulative buffered byte count (retained counter plus
newly appended bytes) is checked against the configured maximum on every
call; whenever it exceeds the maximum the call clears all parser state
(fragment, counter, decoder) and throws the buffer-limit error, so the
stream remains processable afterwards. -/
theorem parseBuffer_bufferLimit_resets {α : Type} (cfg : PConfig)
    (parse : List Nat → Option α) (st : PState) (data : List Nat)
    (h : st.bufferBytes + data.length > cfg.maxBufferSize) :
    parseBuffer cfg parse st data = (.error .bufferLimit, PState.initial) := by
  unfold parseBuffer
  rw [if_pos h]

/-- C8 witness for the buffer-limit reset. -/
theorem parseBuffer_bufferLimit_resets_witness :
    parseBuffer ⟨4, 4⟩ (fun l => some l) PState.initial [65, 66, 67, 68, 69]
      = (.error .bufferLimit, PState.initial) :=
  parseBuffer_bufferLimit_resets ⟨4, 4⟩ (fun l => some l) PState.initial
    [65, 66, 67, 68, 69] (by decide)

/-- C8 counterexample — after a *normal* (non-throwing) call the retained
buffered byte count can exceed the configured maximum: with
`maxBufferSize = 4`, feeding the first three bytes of U+10000 and then its
final byte followed by `"ABC"` leaves `_bufferBytes = 7 > 4`, because the
decoder-buffered bytes of the incomplete character are not counted when the
fragment is re-measured. -/
theorem parseBuffer_retained_bytes_exceed_max :
    (parseBuffer ⟨1024, 4⟩ (fun l => some l) PState.initial
      [0xF0, 0x90, 0x80]).1 = .ok [] ∧
    (parseBuffer ⟨1024, 4⟩ (fun l => some l)
      (parseBuffer ⟨1024, 4⟩ (fun l => some l) PState.initial
        [0xF0, 0x90, 0x80]).2 [0x80, 65, 66, 67]).1 = .ok [] ∧
    (parseBuffer ⟨1024, 4⟩ (fun l => some l)
      (parseBuffer ⟨1024, 4⟩ (fun l => some l) PState.initial
        [0xF0, 0x90, 0x80]).2 [0x80, 65, 66, 67]).2.bufferBytes = 7 ∧
    (PConfig.mk 1024 4).maxBufferSize = 4 := by
  have hdec1 : utf8DecodeGreedy (([] : List Nat) ++ [0xF0, 0x90, 0x80])
      = ([], [0xF0, 0x90, 0x80]) := by
    simp [utf8DecodeGreedy, isCont, isCont1, cont1Lo, cont1Hi]
  have hcall1 : parseBuffer ⟨1024, 4⟩ (fun l : List Nat => some l) PState.initial
      [0xF0, 0x90, 0x80] = (.ok [], ⟨[], [0xF0, 0x90, 0x80], utf8Len []⟩) :=
    parseBuffer_eval _ _ _ _ _ [] [] [] [0xF0, 0x90, 0x80] (by decide) hdec1
      (by decide) rfl
  have hdec2 : utf8DecodeGreedy (([0xF0, 0x90, 0x80] : List Nat) ++ [0x80, 65, 66, 67])
      = ([65536, 65, 66, 67], []) := by
    simp [utf8DecodeGreedy, isCont, isCont1, cont1Lo, cont1Hi, utf8DecodeGreedy_nil]
  have hcall2 : parseBuffer ⟨1024, 4⟩ (fun l : List Nat => some l)
      (⟨[], [0xF0, 0x90, 0x80], utf8Len []⟩ : PState) [0x80, 65, 66, 67]
      = (.ok [], ⟨[65536, 65, 66, 67], [], utf8Len [65536, 65, 66, 67]⟩) :=
    parseBuffer_eval _ _ _ _ _ [] [65536, 65, 66, 67] [65536, 65, 66, 67] []
      (by decide) hdec2 (by decide) rfl
  refine ⟨?_, ?_, ?_, rfl⟩
  · rw [hcall1]
  · rw [hcall1]
    exact congrArg Prod.fst hcall2
  · rw [hcall1]
    have h7 : utf8Len [65536, 65, 66, 67] = 7 := by decide
    exact (congrArg (fun x => x.2.bufferBytes) hcall2).trans h7

/-- C9 (amended) — a non-blank candidate line whose UTF-8 byte length
exceeds the per-message limit (in particular `N+1` bytes against limit `N`)
raises the size-limit error and resets the fragment, the byte counter and
the decoder to their initial state, after which a valid newline-terminated
message parses normally. -/
theorem parseBuffer_sizeLimit_and_recovery {α : Type} (parse : List Nat → Option α)
    (cfg : PConfig) (cs : List Nat) (hv : ∀ c ∈ cs, ValidCP c ∧ c ≠ 10)
    (hnb : jsTrim cs ≠ []) (hover : utf8Len cs > cfg.maxMessageSize)
    (hbuf : (utf8Encode (cs ++ [10])).length ≤ cfg.maxBufferSize) :
    parseBuffer cfg parse PState.initial (utf8Encode (cs ++ [10]))
      = (.error .msgSizeLimit, PState.initial)
    ∧ ∀ cs2 v, (∀ c ∈ cs2, ValidCP c ∧ c ≠ 10) → jsTrim cs2 ≠ [] →
        utf8Len cs2 ≤ cfg.maxMessageSize →
        (utf8Encode (cs2 ++ [10])).length ≤ cfg.maxBufferSize →
        parse cs2 = some v →
        parseBuffer cfg parse PState.initial (utf8Encode (cs2 ++ [10]))
          = (.ok [v], PState.initial) := by
  constructor
  · have hvall : ∀ c ∈ cs ++ [10], ValidCP c := by
      intro c hc
      rcases List.mem_append.mp hc with h | h
      · exact (hv c h).1
      · simp at h
        subst h
        exact ⟨by omega, by omega⟩
    have hdec : utf8DecodeGreedy (([] : List Nat) ++ utf8Encode (cs ++ [10]))
        = (cs ++ [10], []) := by
      rw [List.nil_append]
      exact utf8DecodeGreedy_encode _ hvall
    have hsl : splitLines (([] : List Nat) ++ (cs ++ [10])) = ([cs], []) := by
      rw [List.nil_append]
      have h1 : joinNL [cs] = cs ++ [10] := by simp [joinNL]
      rw [← h1]
      exact splitLines_joinNL [cs] (by
        intro l hl
        simp at hl
        subst hl
        intro hc
        exact (hv 10 hc).2 rfl)
    have hpl : processLines cfg parse [cs] = .error .msgSizeLimit := by
      rw [processLines, if_neg hnb, if_pos hover]
    exact parseBuffer_evalErr cfg parse PState.initial _ _ [cs] [] (cs ++ [10]) []
      (by simpa [PState.initial] using hbuf) hdec hsl hpl
  · intro cs2 v hv2 hnb2 hsz2 hbuf2 hparse
    have hvall : ∀ c ∈ cs2 ++ [10], ValidCP c := by
      intro c hc
      rcases List.mem_append.mp hc with h | h
      · exact (hv2 c h).1
      · simp at h
        subst h
        exact ⟨by omega, by omega⟩
    have hdec : utf8DecodeGreedy (([] : List Nat) ++ utf8Encode (cs2 ++ [10]))
        = (cs2 ++ [10], []) := by
      rw [List.nil_append]
      exact utf8DecodeGreedy_encode _ hvall
    have hsl : splitLines (([] : List Nat) ++ (cs2 ++ [10])) = ([cs2], []) := by
      rw [List.nil_append]
      have h1 : joinNL [cs2] = cs2 ++ [10] := by simp [joinNL]
      rw [← h1]
      exact splitLines_joinNL [cs2] (by
        intro l hl
        simp at hl
        subst hl
        intro hc
        exact (hv2 10 hc).2 rfl)
    have hpl : processLines cfg parse [cs2] = .ok [v] := by
      rw [processLines, if_neg hnb2, if_neg (by omega), hparse]
      rfl
    exact parseBuffer_eval cfg parse PState.initial _ _ [cs2] [] (cs2 ++ [10]) []
      (by simpa [PState.initial] using hbuf2) hdec hsl hpl

/-- C9 witness — scenario D at `N = 4`: the five-byte body `"12345"` errors,
then the two-byte body `"{}"` parses. -/
theorem parseBuffer_sizeLimit_and_recovery_witness :
    (parseBuffer ⟨4, 100⟩ (fun l => some l) PState.initial
        (utf8Encode ([49,50,51,52,53] ++ [10]))
      = (.error .msgSizeLimit, PState.initial)
    ∧ ∀ cs2 v, (∀ c ∈ cs2, ValidCP c ∧ c ≠ 10) → jsTrim cs2 ≠ [] →
        utf8Len cs2 ≤ (4 : Nat) →
        (utf8Encode (cs2 ++ [10])).length ≤ (100 : Nat) →
        (fun l : List Nat => some l) cs2 = some v →
        parseBuffer ⟨4, 100⟩ (fun l => some l) PState.initial (utf8Encode (cs2 ++ [10]))
          = (.ok [v], PState.initial)) :=
  parseBuffer_sizeLimit_and_recovery (fun l => some l) ⟨4, 100⟩ [49,50,51,52,53]
    (by decide) (by decide) (by decide) (by decide)

/-- C9 counterexample — an *all-whitespace* candidate line longer than the
per-message limit is silently skipped by the blank-line check before the
size check: five spaces against limit 4 yield no error and no messages. -/
theorem parseBuffer_oversized_blank_skipped :
    utf8Len [32,32,32,32,32] = 5 ∧ (PConfig.mk 4 1024).maxMessageSize = 4 ∧
    parseBuffer ⟨4, 1024⟩ (fun l => some l) PState.initial [32,32,32,32,32,10]
      = (.ok [], PState.initial) := by
  refine ⟨by decide, rfl, ?_⟩
  have hdec : utf8DecodeGreedy (([] : List Nat) ++ [32,32,32,32,32,10])
      = ([32,32,32,32,32,10], []) := by
    simp [utf8DecodeGreedy, utf8DecodeGreedy_nil]
  have hcall : parseBuffer ⟨4, 1024⟩ (fun l : List Nat => some l) PState.initial
      [32,32,32,32,32,10] = (.ok [], ⟨[], [], utf8Len []⟩) :=
    parseBuffer_eval _ _ _ _ _ [[32,32,32,32,32]] [] [32,32,32,32,32,10] []
      (by decide) hdec (by decide) rfl
  rw [hcall]
  rfl


theorem strLe_trans {a b c : List Nat} (h1 : strLe a b = true) (h2 : strLe b c = true) :
    strLe a c = true := by
  induction a generalizing b c with
  | nil => rfl
  | cons x as ih =>
    match b with
    | [] => simp [strLe] at h1
    | y :: bs =>
      match c with
      | [] => simp [strLe] at h2
      | z :: cs =>
        rcases Nat.lt_trichotomy x y with hxy | hxy | hxy
        · rcases Nat.lt_trichotomy y z with hyz | hyz | hyz
          · have : x < z := Nat.lt_trans hxy hyz
            simp [strLe, this]
          · subst hyz
            simp [strLe, hxy]
          · exfalso
            have : ¬ y < z := Nat.lt_asymm hyz
            simp [strLe, this, Nat.ne_of_lt' hyz] at h2
            omega
        · subst hxy
          rcases Nat.lt_trichotomy x z with hyz | hyz | hyz
          · simp [strLe, hyz]
          · subst hyz
            simp only [strLe, Nat.lt_irrefl, if_false] at h1 h2 ⊢
            exact ih h1 h2
          · exfalso
            have : ¬ x < z := Nat.lt_asymm hyz
            simp [strLe, this, Nat.ne_of_lt' hyz] at h2
            omega
        · exfalso
          have : ¬ x < y := Nat.lt_asymm hxy
          simp [strLe, this, Nat.ne_of_lt' hxy] at h1
          omega

/-! ## JSON values and `ResultCache` (src/result-cache.js)

Argument and result values are modelled as JSON-like data; numeric values
are modelled as integers (the claims exercise timestamps and counters
only).  `crypto.createHash('sha256')` over
`commandName + ':' + JSON.stringify(normalizedArgs)` is modelled as an
injective function of its input, i.e. the cache key is the hashed text
itself: every claim depends only on equal inputs producing equal keys.
`_cloneResult` (a `JSON.parse(JSON.stringify(.))` round-trip) is the
identity on the modelled JSON-representable values.
-/

inductive JVal where
  | null
  | bool (b : Bool)
  | num (n : Int)
  | str (s : List Nat)
  | arr (elems : List JVal)
  | obj (fields : List (List Nat × JVal))

/-- JavaScript falsiness of a modelled value (`!result`). -/
def jvalFalsy : JVal → Bool
  | .null => true
  | .bool false => true
  | .num 0 => true
  | .str [] => true
  | _ => false

/-- First-match association lookup (`obj[key]`). -/
def lookupField : List (List Nat × JVal) → List Nat → Option JVal
  | [], _ => none
  | (k', v) :: rest, k => if k' = k then some v else lookupField rest k

/-- The string `"success"`. -/
def strSuccess : List Nat := [115, 117, 99, 99, 101, 115, 115]

/-- Is this looked-up property exactly the value `false`? -/
def isFalseVal : Option JVal → Bool
  | some (.bool false) => true
  | _ => false

/-- `result.success === false`. -/
def successIsFalse : JVal → Bool
  | .obj fs => isFalseVal (lookupField fs strSuccess)
  | _ => false

/-- One hexadecimal digit character. -/
def hexDigit (n : Nat) : Nat := if n < 10 then 48 + n else 87 + n

/-- JSON string escaping of one code point. -/
def escapeChar (c : Nat) : List Nat :=
  if c = 34 then [92, 34]
  else if c = 92 then [92, 92]
  else if c = 8 then [92, 98]
  else if c = 9 then [92, 116]
  else if c = 10 then [92, 110]
  else if c = 12 then [92, 102]
  else if c = 13 then [92, 114]
  else if c < 32 then [92, 117, 48, 48, hexDigit (c / 16), hexDigit (c % 16)]
  else [c]

/-- Decimal digits of a natural number (ASCII codes). -/
def natDigits (n : Nat) : List Nat := (Nat.toDigits 10 n).map Char.toNat

/-- Decimal rendering of an integer. -/
def intToStr : Int → List Nat
  | .ofNat n => natDigits n
  | .negSucc n => 45 :: natDigits (n + 1)

/-- A JSON-quoted string. -/
def quoteStr (s : List Nat) : List Nat := 34 :: s.flatMap escapeChar ++ [34]

mutual
/-- Models `JSON.stringify` (object fields in list order). -/
def jsonStringify : JVal → List Nat
  | .null => [110, 117, 108, 108]
  | .bool true => [116, 114, 117, 101]
  | .bool false => [102, 97, 108, 115, 101]
  | .num i => intToStr i
  | .str s => quoteStr s
  | .arr es => 91 :: jsonStringifyArr es ++ [93]
  | .obj fs => 123 :: jsonStringifyObj fs ++ [125]

def jsonStringifyArr : List JVal → List Nat
  | [] => []
  | [v] => jsonStringify v
  | v :: w :: rest => jsonStringify v ++ 44 :: jsonStringifyArr (w :: rest)

def jsonStringifyObj : List (List Nat × JVal) → List Nat
  | [] => []
  | [(k, v)] => quoteStr k ++ 58 :: jsonStringify v
  | (k, v) :: kv :: rest =>
    quoteStr k ++ 58 :: jsonStringify v ++ 44 :: jsonStringifyObj (kv :: rest)
end

/-- UTF-16 length of a string (`.length` in JavaScript): astral code points
count as two units. -/
def utf16Len (s : List Nat) : Nat := (s.map fun c => if c < 0x10000 then 1 else 2).sum

namespace ResultCache

/-- `_estimateSize`: `JSON.stringify(result).length * 2`. -/
def estimateSize (v : JVal) : Nat := utf16Len (jsonStringify v) * 2

/-- The strings `"research"`, `"analyze"`, `"review"`, `"explain"`. -/
def strResearch : List Nat := [114, 101, 115, 101, 97, 114, 99, 104]
def strAnalyze : List Nat := [97, 110, 97, 108, 121, 122, 101]
def strReview : List Nat := [114, 101, 118, 105, 101, 119]
def strExplain : List Nat := [101, 120, 112, 108, 97, 105, 110]

/-- The fixed allow-list of cacheable commands. -/
def cacheableCommands : List (List Nat) := [strResearch, strAnalyze, strReview, strExplain]

/-- `_shouldCache` on a non-null result: reject falsy results, results with
`success === false`, results estimated over 1 MiB, and commands outside the
allow-list. -/
def shouldCache (commandName : List Nat) (v : JVal) : Bool :=
  if jvalFalsy v then false
  else if successIsFalse v then false
  else if estimateSize v > 1024 * 1024 then false
  else cacheableCommands.contains commandName

/-- An argument value passed to the cache (`args` array element). -/
inductive Arg where
  | str (s : List Nat)
  | num (n : Int)
  | bool (b : Bool)
  | null
  | obj (fields : List (List Nat × JVal))

/-- `strLe` as a sorting relation for `Array.prototype.sort()` on keys. -/
def keyLe (a b : List Nat) : Prop := strLe a b = true

instance : DecidableRel keyLe := fun a b => by unfold keyLe; infer_instance

instance : IsTotal (List Nat) keyLe := ⟨fun a b => strLe_total a b⟩

instance : IsTrans (List Nat) keyLe := ⟨fun _ _ _ => strLe_trans⟩

/-- Normalization of one argument: trim+lowercase strings, key-sort objects
(values looked up from the original object), leave the rest. -/
def normalizeArg : Arg → Arg
  | .str s => .str (jsToLower (jsTrim s))
  | .obj fs =>
    .obj (((fs.map Prod.fst).insertionSort keyLe).map
      fun k => (k, (lookupField fs k).getD .null))
  | x => x

/-- `_normalizeArgs`. -/
def normalizeArgs (args : List Arg) : List Arg := args.map normalizeArg

/-- An argument as the JSON value that `JSON.stringify` serialises. -/
def argToJVal : Arg → JVal
  | .str s => .str s
  | .num n => .num n
  | .bool b => .bool b
  | .null => .null
  | .obj fs => .obj fs

/-- `_generateKey`: the key is
`sha256(commandName + ':' + JSON.stringify(normalizedArgs))`; the hash is
modelled as an injective function, so the key is the hashed text itself. -/
def generateKey (commandName : List Nat) (args : List Arg) : List Nat :=
  commandName ++ 58 :: jsonStringify (.arr ((normalizeArgs args).map argToJVal))

/-- One stored cache entry (the `key` field of the JS entry is the
association key of the map below). -/
structure Entry where
  commandName : List Nat
  args : List Arg
  result : JVal
  cachedAt : Nat
  expiresAt : Nat
  lastAccessed : Nat
  hitCount : Nat
  size : Nat

/-- The `Map` of entries, in insertion order (JS `Map` iteration order). -/
abbrev CacheMap := List (List Nat × Entry)

/-- Configuration fixed at construction: `maxSize` and `defaultTTL`. -/
structure Config where
  maxSize : Nat
  defaultTTL : Nat

/-- `Map.prototype.get`. -/
def mapLookup : CacheMap → List Nat → Option Entry
  | [], _ => none
  | (k', e) :: rest, k => if k' = k then some e else mapLookup rest k

/-- `Map.prototype.set`: replace in place, else append. -/
def mapSet : CacheMap → List Nat → Entry → CacheMap
  | [], k, e => [(k, e)]
  | (k', e') :: rest, k, e =>
    if k' = k then (k, e) :: rest else (k', e') :: mapSet rest k e

/-- `Map.prototype.delete`. -/
def mapDelete : CacheMap → List Nat → CacheMap
  | [], _ => []
  | (k', e') :: rest, k => if k' = k then rest else (k', e') :: mapDelete rest k

/-- The per-command TTL table (`commandTTLs`), in milliseconds. -/
def commandTTL (commandName : List Nat) : Option Nat :=
  if commandName = strResearch then some (10 * 60 * 1000)
  else if commandName = strAnalyze then some (5 * 60 * 1000)
  else if commandName = strReview then some (15 * 60 * 1000)
  else if commandName = strExplain then some (30 * 60 * 1000)
  else none

/-- JavaScript `a || b` on numbers (`0` and `null` are falsy). -/
def orFalsy (a : Nat) (b : Nat) : Nat := if a ≠ 0 then a else b

/-- `customTTL || this.commandTTLs[commandName] || this.defaultTTL`. -/
def resolveTTL (cfg : Config) (commandName : List Nat) (customTTL : Option Nat) : Nat :=
  orFalsy (customTTL.getD 0) (orFalsy ((commandTTL commandName).getD 0) cfg.defaultTTL)

/-- The blended recency/frequency score
`hitCount * 0.7 + (lastAccessed / 1000) * 0.3`. -/
def score (e : Entry) : ℚ :=
  (e.hitCount : ℚ) * (7 / 10) + ((e.lastAccessed : ℚ) / 1000) * (3 / 10)

/-- Ascending score comparison used by the eviction sort. -/
def scoreLe (a b : List Nat × Entry) : Prop := score a.2 ≤ score b.2

instance : DecidableRel scoreLe := fun a b => by unfold scoreLe; infer_instance

instance : IsTotal (List Nat × Entry) scoreLe :=
  ⟨fun a b => le_total (score a.2) (score b.2)⟩

instance : IsTrans (List Nat × Entry) scoreLe :=
  ⟨fun _ _ _ h1 h2 => le_trans h1 h2⟩

/-- `Math.ceil(maxSize * 0.2)`. -/
def ceilFifth (m : Nat) : Nat := (m + 4) / 5

/-- Delete a list of keys in order (`entries.forEach(e => cache.delete(e.key))`). -/
def deleteAll (m : CacheMap) : List (List Nat) → CacheMap
  | [] => m
  | k :: ks => deleteAll (mapDelete m k) ks

/-- `_evictOldEntries`: delete every expired entry; if the map is still at
or above `maxSize`, sort the non-expired snapshot ascending by score and
delete the first `Math.ceil(maxSize * 0.2)` of them. -/
def evictOldEntries (cfg : Config) (st : CacheMap) (now : Nat) : CacheMap :=
  let expired := st.filter fun kv => kv.2.expiresAt < now
  let st1 := deleteAll st (expired.map Prod.fst)
  if st1.length ≥ cfg.maxSize then
    let sorted := (st.filter fun kv => ¬ kv.2.expiresAt < now).insertionSort scoreLe
    deleteAll st1 ((sorted.take (ceilFifth cfg.maxSize)).map Prod.fst)
  else st1

/-- `_needsEviction`: `this.cache.size >= this.maxSize`. -/
def needsEviction (cfg : Config) (st : CacheMap) : Bool := st.length ≥ cfg.maxSize

/-- `set(commandName, args, result, customTTL)` at time `now`. -/
def set (cfg : Config) (st : CacheMap) (commandName : List Nat) (args : List Arg)
    (result : Option JVal) (customTTL : Option Nat) (now : Nat) : Bool × CacheMap :=
  match result with
  | none => (false, st)
  | some v =>
    if ¬ shouldCache commandName v then (false, st)
    else
      let key := generateKey commandName args
      let ttl := resolveTTL cfg commandName customTTL
      let entry : Entry :=
        { commandName := commandName
          args := normalizeArgs args
          result := v
          cachedAt := now
          expiresAt := now + ttl
          lastAccessed := now
          hitCount := 0
          size := estimateSize v }
      let st1 := if needsEviction cfg st then evictOldEntries cfg st now else st
      (true, mapSet st1 key entry)

/-- The strings used by the `_cacheInfo` annotation. -/
def strCacheInfo : List Nat := [95, 99, 97, 99, 104, 101, 73, 110, 102, 111]
def strCached : List Nat := [99, 97, 99, 104, 101, 100]
def strHitCount : List Nat := [104, 105, 116, 67, 111, 117, 110, 116]
def strCachedAt : List Nat := [99, 97, 99, 104, 101, 100, 65, 116]
def strLastAccessed : List Nat :=
  [108, 97, 115, 116, 65, 99, 99, 101, 115, 115, 101, 100]

/-- The own enumerable fields spread by `{...entry.result, ...}`. -/
def spreadFields : JVal → List (List Nat × JVal)
  | .obj fs => fs
  | _ => []

/-- Setting one field of an object: overwrite in place, else append. -/
def mergeField : List (List Nat × JVal) → List Nat → JVal → List (List Nat × JVal)
  | [], k, v => [(k, v)]
  | (k', v') :: rest, k, v =>
    if k' = k then (k, v) :: rest else (k', v') :: mergeField rest k v

/-- `{...entry.result, _cacheInfo: {cached: true, hitCount, cachedAt,
lastAccessed}}`. -/
def withCacheInfo (v : JVal) (hits cachedAt lastAccessed : Nat) : JVal :=
  .obj (mergeField (spreadFields v) strCacheInfo
    (.obj [(strCached, .bool true), (strHitCount, .num hits),
           (strCachedAt, .num cachedAt), (strLastAccessed, .num lastAccessed)]))

/-- `get(commandName, args)` at time `now`: miss on absence, lazy delete on
expiry, otherwise bump `hitCount`, refresh `lastAccessed` and return the
result annotated with `_cacheInfo`. -/
def get (st : CacheMap) (commandName : List Nat) (args : List Arg) (now : Nat) :
    Option JVal × CacheMap :=
  let key := generateKey commandName args
  match mapLookup st key with
  | none => (none, st)
  | some e =>
    if now > e.expiresAt then (none, mapDelete st key)
    else
      let e' := { e with hitCount := e.hitCount + 1, lastAccessed := now }
      (some (withCacheInfo e.result e'.hitCount e.cachedAt e'.lastAccessed),
        mapSet st key e')

/-- The result argument signals failure: it is absent/falsy
(`!result`) or carries `success === false`. -/
def resultFails : Option JVal → Bool
  | none => true
  | some v => jvalFalsy v || successIsFalse v

/-- The result's estimated serialized size exceeds the fixed 1 MiB ceiling. -/
def resultOversized : Option JVal → Bool
  | none => false
  | some v => estimateSize v > 1024 * 1024

end ResultCache


namespace ResultCache

/-! ### Association-map lemmas -/

/-- Key-uniqueness invariant of a JS `Map` modelled as an association list. -/
def WF (m : CacheMap) : Prop := (m.map Prod.fst).Nodup

theorem mapLookup_of_mem : ∀ {m : CacheMap} {k : List Nat} {e : Entry},
    WF m → (k, e) ∈ m → mapLookup m k = some e := by
  intro m
  induction m with
  | nil =>
    intro k e _ h
    cases h
  | cons kv rest ih =>
    intro k e hwf h
    cases kv with
    | mk k' e' =>
      rcases List.mem_cons.mp h with h | h
      · injection h with h1 h2
        subst h1; subst h2
        rw [mapLookup, if_pos rfl]
      · by_cases hk : k' = k
        · exfalso
          subst hk
          have : k' ∈ rest.map Prod.fst := List.mem_map.mpr ⟨(k', e), h, rfl⟩
          exact (List.nodup_cons.mp hwf).1 this
        · rw [mapLookup, if_neg hk]
          exact ih (List.nodup_cons.mp hwf).2 h

theorem mem_of_mapLookup : ∀ {m : CacheMap} {k : List Nat} {e : Entry},
    mapLookup m k = some e → (k, e) ∈ m := by
  intro m
  induction m with
  | nil =>
    intro k e h
    simp [mapLookup] at h
  | cons kv rest ih =>
    intro k e h
    cases kv with
    | mk k' e' =>
      rw [mapLookup] at h
      by_cases hk : k' = k
      · rw [if_pos hk] at h
        injection h with h
        subst hk; subst h
        simp
      · rw [if_neg hk] at h
        exact List.mem_cons.mpr (Or.inr (ih h))

theorem mem_unique {m : CacheMap} {k : List Nat} {a b : Entry}
    (hwf : WF m) (ha : (k, a) ∈ m) (hb : (k, b) ∈ m) : a = b := by
  have h1 := mapLookup_of_mem hwf ha
  have h2 := mapLookup_of_mem hwf hb
  rw [h1] at h2
  exact Option.some.inj h2

theorem mapDelete_keys_sublist (m : CacheMap) (k : List Nat) :
    ((mapDelete m k).map Prod.fst).Sublist (m.map Prod.fst) := by
  induction m with
  | nil => simp [mapDelete]
  | cons kv rest ih =>
    cases kv with
    | mk k' e' =>
      rw [mapDelete]
      by_cases hk : k' = k
      · rw [if_pos hk]
        simp
      · rw [if_neg hk]
        simpa using List.Sublist.cons₂ k' ih

theorem mapDelete_nodup {m : CacheMap} (k : List Nat) (hwf : WF m) :
    WF (mapDelete m k) :=
  List.Nodup.sublist (mapDelete_keys_sublist m k) hwf

theorem mapDelete_length_le (m : CacheMap) (k : List Nat) :
    (mapDelete m k).length ≤ m.length := by
  induction m with
  | nil => simp [mapDelete]
  | cons kv rest ih =>
    cases kv with
    | mk k' e' =>
      rw [mapDelete]
      by_cases hk : k' = k
      · rw [if_pos hk]; simp
      · rw [if_neg hk]; simpa using ih

theorem mapDelete_length_present {m : CacheMap} {k : List Nat} {e : Entry}
    (h : mapLookup m k = some e) : (mapDelete m k).length + 1 = m.length := by
  induction m with
  | nil => simp [mapLookup] at h
  | cons kv rest ih =>
    cases kv with
    | mk k' e' =>
      rw [mapLookup] at h
      rw [mapDelete]
      by_cases hk : k' = k
      · rw [if_pos hk]; simp
      · rw [if_neg hk] at h ⊢
        simpa using ih h

theorem mapDelete_lookup_other {m : CacheMap} {k k' : List Nat} (h : k' ≠ k) :
    mapLookup (mapDelete m k) k' = mapLookup m k' := by
  induction m with
  | nil => rfl
  | cons kv rest ih =>
    cases kv with
    | mk k0 e0 =>
      rw [mapDelete]
      by_cases hk : k0 = k
      · rw [if_pos hk, mapLookup, if_neg (by rw [hk]; exact fun hc => h hc.symm)]
      · rw [if_neg hk, mapLookup, mapLookup]
        by_cases h0 : k0 = k'
        · rw [if_pos h0, if_pos h0]
        · rw [if_neg h0, if_neg h0, ih]

theorem mapDelete_lookup_self {m : CacheMap} (k : List Nat) (hwf : WF m) :
    mapLookup (mapDelete m k) k = none := by
  induction m with
  | nil => rfl
  | cons kv rest ih =>
    cases kv with
    | mk k0 e0 =>
      rw [mapDelete]
      by_cases hk : k0 = k
      · rw [if_pos hk]
        subst hk
        cases hl : mapLookup rest k0 with
        | none => rfl
        | some e =>
          exfalso
          have : (k0, e) ∈ rest := mem_of_mapLookup hl
          exact (List.nodup_cons.mp hwf).1 (List.mem_map.mpr ⟨(k0, e), this, rfl⟩)
      · rw [if_neg hk, mapLookup, if_neg hk]
        exact ih (List.nodup_cons.mp hwf).2

theorem mapDelete_lookup_none {m : CacheMap} {k k' : List Nat}
    (h : mapLookup m k' = none) : mapLookup (mapDelete m k) k' = none := by
  by_cases hk : k' = k
  · subst hk
    induction m with
    | nil => rfl
    | cons kv rest ih =>
      cases kv with
      | mk k0 e0 =>
        rw [mapLookup] at h
        by_cases h0 : k0 = k'
        · rw [if_pos h0] at h
          cases h
        · rw [if_neg h0] at h
          rw [mapDelete, if_neg h0, mapLookup, if_neg h0]
          exact ih h
  · rw [mapDelete_lookup_other hk]
    exact h

theorem deleteAll_nodup {m : CacheMap} (ks : List (List Nat)) (hwf : WF m) :
    WF (deleteAll m ks) := by
  induction ks generalizing m with
  | nil => exact hwf
  | cons k ks ih => exact ih (mapDelete_nodup k hwf)

theorem deleteAll_lookup_none {m : CacheMap} {k' : List Nat} (ks : List (List Nat))
    (h : mapLookup m k' = none) : mapLookup (deleteAll m ks) k' = none := by
  induction ks generalizing m with
  | nil => exact h
  | cons k ks ih => exact ih (mapDelete_lookup_none h)

theorem deleteAll_lookup_not_mem {m : CacheMap} {k' : List Nat} {ks : List (List Nat)}
    (h : k' ∉ ks) : mapLookup (deleteAll m ks) k' = mapLookup m k' := by
  induction ks generalizing m with
  | nil => rfl
  | cons k ks ih =>
    have h1 : k' ≠ k := fun hc => h (by simp [hc])
    have h2 : k' ∉ ks := fun hc => h (by simp [hc])
    rw [deleteAll, ih h2, mapDelete_lookup_other h1]

theorem deleteAll_lookup_of_mem {m : CacheMap} {k : List Nat} {ks : List (List Nat)}
    (hwf : WF m) (h : k ∈ ks) : mapLookup (deleteAll m ks) k = none := by
  induction ks generalizing m with
  | nil => cases h
  | cons k0 ks ih =>
    rw [deleteAll]
    by_cases hk : k = k0
    · subst hk
      exact deleteAll_lookup_none ks (mapDelete_lookup_self k hwf)
    · exact ih (mapDelete_nodup k0 hwf) (by
        rcases List.mem_cons.mp h with h | h
        · exact absurd h hk
        · exact h)

theorem deleteAll_length_le (m : CacheMap) (ks : List (List Nat)) :
    (deleteAll m ks).length ≤ m.length := by
  induction ks generalizing m with
  | nil => exact le_refl _
  | cons k ks ih =>
    exact le_trans (ih (mapDelete m k)) (mapDelete_length_le m k)

theorem deleteAll_length_eq {m : CacheMap} {ks : List (List Nat)}
    (hwf : WF m) (hnd : ks.Nodup) (hpres : ∀ k ∈ ks, mapLookup m k ≠ none) :
    (deleteAll m ks).length + ks.length = m.length := by
  induction ks generalizing m with
  | nil => simp [deleteAll]
  | cons k ks ih =>
    rw [deleteAll]
    have hp : mapLookup m k ≠ none := hpres k (by simp)
    cases hl : mapLookup m k with
    | none => exact absurd hl hp
    | some e =>
      have hlen := mapDelete_length_present hl
      have hih := ih (mapDelete_nodup k hwf) (List.nodup_cons.mp hnd).2 (by
        intro k' hk'
        have hne : k' ≠ k := by
          intro hc
          exact (List.nodup_cons.mp hnd).1 (hc ▸ hk')
        rw [mapDelete_lookup_other hne]
        exact hpres k' (by simp [hk']))
      simp only [List.length_cons]
      omega

theorem mapSet_length_le (m : CacheMap) (k : List Nat) (e : Entry) :
    (mapSet m k e).length ≤ m.length + 1 := by
  induction m with
  | nil => simp [mapSet]
  | cons kv rest ih =>
    cases kv with
    | mk k0 e0 =>
      rw [mapSet]
      by_cases hk : k0 = k
      · rw [if_pos hk]; simp
      · rw [if_neg hk]; simpa using ih

theorem mapSet_lookup_self (m : CacheMap) (k : List Nat) (e : Entry) :
    mapLookup (mapSet m k e) k = some e := by
  induction m with
  | nil => simp [mapSet, mapLookup]
  | cons kv rest ih =>
    cases kv with
    | mk k0 e0 =>
      rw [mapSet]
      by_cases hk : k0 = k
      · rw [if_pos hk, mapLookup, if_pos rfl]
      · rw [if_neg hk, mapLookup, if_neg hk]
        exact ih

theorem mapSet_keys_sub {m : CacheMap} {k : List Nat} {e : Entry} :
    ∀ k', k' ∈ (mapSet m k e).map Prod.fst → k' = k ∨ k' ∈ m.map Prod.fst := by
  induction m with
  | nil =>
    intro k' h
    simp [mapSet] at h
    exact Or.inl h
  | cons kv rest ih =>
    cases kv with
    | mk k0 e0 =>
      intro k' h
      rw [mapSet] at h
      by_cases hk : k0 = k
      · rw [if_pos hk] at h
        simp at h
        rcases h with h | h
        · exact Or.inl h
        · exact Or.inr (by simp [h])
      · rw [if_neg hk] at h
        simp at h
        rcases h with h | h
        · exact Or.inr (by simp [h])
        · rcases ih k' (by simpa using h) with h | h
          · exact Or.inl h
          · exact Or.inr (by simp [h])

theorem mapSet_nodup {m : CacheMap} (k : List Nat) (e : Entry) (hwf : WF m) :
    WF (mapSet m k e) := by
  induction m with
  | nil => simp [mapSet, WF]
  | cons kv rest ih =>
    cases kv with
    | mk k0 e0 =>
      have h1 := List.nodup_cons.mp hwf
      rw [mapSet]
      by_cases hk : k0 = k
      · rw [if_pos hk]
        subst hk
        exact hwf
      · rw [if_neg hk]
        refine List.nodup_cons.mpr ⟨?_, ih h1.2⟩
        intro hc
        simp only [List.map_cons] at hc
        rcases mapSet_keys_sub k0 hc with h | h
        · exact hk h
        · exact h1.1 h

end ResultCache


/-- C7 — `ResultCache.set` returns `false` and leaves the cache map
unchanged whenever the result signals failure, the estimated serialized
size exceeds the 1 MiB ceiling, or the command is not in the allow-list
(research, analyze, review, explain); no entry is stored in those cases. -/
theorem ResultCache.set_rejects (cfg : ResultCache.Config) (st : ResultCache.CacheMap)
    (commandName : List Nat) (args : List ResultCache.Arg) (result : Option JVal)
    (customTTL : Option Nat) (now : Nat)
    (h : ResultCache.resultFails result = true
       ∨ ResultCache.resultOversized result = true
       ∨ ResultCache.cacheableCommands.contains commandName = false) :
    ResultCache.set cfg st commandName args result customTTL now = (false, st) := by
  cases result with
  | none => rfl
  | some v =>
    have hsc : ResultCache.shouldCache commandName v = false := by
      unfold ResultCache.shouldCache
      rcases h with h | h | h
      · simp only [ResultCache.resultFails, Bool.or_eq_true] at h
        rcases h with h | h
        · simp [h]
        · by_cases hf : jvalFalsy v
          · simp [hf]
          · simp [hf, h]
      · simp only [ResultCache.resultOversized] at h
        by_cases hf : jvalFalsy v
        · simp [hf]
        · by_cases hs : successIsFalse v
          · simp [hf, hs]
          · simp only [hf, Bool.false_eq_true, if_false, hs]
            rw [if_pos (by simpa using h)]
      · by_cases hf : jvalFalsy v
        · simp [hf]
        · by_cases hs : successIsFalse v
          · simp [hf, hs]
          · by_cases ho : ResultCache.estimateSize v > 1024 * 1024
            · simp [hf, hs, ho]
            · have h2 : commandName ∉ ResultCache.cacheableCommands := by simpa using h
              simp [hf, hs, ho, h2]
    show ResultCache.set cfg st commandName args (some v) customTTL now = (false, st)
    simp only [ResultCache.set]
    rw [if_pos (by simp [hsc])]

/-- C7 witness — a failed `analyze` result is not stored. -/
theorem ResultCache.set_rejects_witness :
    ResultCache.set ⟨100, 300000⟩ [] ResultCache.strAnalyze []
      (some (.obj [(strSuccess, .bool false)])) none 1000 = (false, []) :=
  ResultCache.set_rejects ⟨100, 300000⟩ [] ResultCache.strAnalyze []
    (some (.obj [(strSuccess, .bool false)])) none 1000 (Or.inl (by decide))

theorem ResultCache.evictOldEntries_nodup (cfg : ResultCache.Config)
    (st : ResultCache.CacheMap) (now : Nat) (hwf : ResultCache.WF st) :
    ResultCache.WF (ResultCache.evictOldEntries cfg st now) := by
  unfold ResultCache.evictOldEntries
  simp only
  split
  · exact ResultCache.deleteAll_nodup _ (ResultCache.deleteAll_nodup _ hwf)
  · exact ResultCache.deleteAll_nodup _ hwf

/-- C6 — an entry stored by `set` with resolved TTL `t` at time `now0` is
returned by `get` (with `_cacheInfo` provenance: hit count 1, `cachedAt`
`now0`, refreshed `lastAccessed`) while less than `t` has elapsed, and
strictly after `t` has elapsed `get` returns `null` and deletes the entry. -/
theorem ResultCache.get_ttl_semantics (cfg : ResultCache.Config)
    (st : ResultCache.CacheMap) (commandName : List Nat) (args : List ResultCache.Arg)
    (v : JVal) (customTTL : Option Nat) (now0 now1 : Nat)
    (hwf : ResultCache.WF st)
    (hok : (ResultCache.set cfg st commandName args (some v) customTTL now0).1 = true) :
    (now1 < now0 + ResultCache.resolveTTL cfg commandName customTTL →
      (ResultCache.get (ResultCache.set cfg st commandName args (some v) customTTL now0).2
        commandName args now1).1
        = some (ResultCache.withCacheInfo v 1 now0 now1)) ∧
    (now1 > now0 + ResultCache.resolveTTL cfg commandName customTTL →
      (ResultCache.get (ResultCache.set cfg st commandName args (some v) customTTL now0).2
        commandName args now1).1 = none ∧
      ResultCache.mapLookup
        (ResultCache.get (ResultCache.set cfg st commandName args (some v) customTTL now0).2
          commandName args now1).2
        (ResultCache.generateKey commandName args) = none) := by
  have hsc : ResultCache.shouldCache commandName v = true := by
    by_contra hc
    have hb : ResultCache.set cfg st commandName args (some v) customTTL now0
        = (false, st) := by
      simp only [ResultCache.set]
      rw [if_pos (by simpa using hc)]
    rw [hb] at hok
    simp at hok
  set st1 := if ResultCache.needsEviction cfg st then
    ResultCache.evictOldEntries cfg st now0 else st with hst1
  have hwf1 : ResultCache.WF st1 := by
    rw [hst1]
    split
    · exact ResultCache.evictOldEntries_nodup cfg st now0 hwf
    · exact hwf
  set entry : ResultCache.Entry :=
    { commandName := commandName
      args := ResultCache.normalizeArgs args
      result := v
      cachedAt := now0
      expiresAt := now0 + ResultCache.resolveTTL cfg commandName customTTL
      lastAccessed := now0
      hitCount := 0
      size := ResultCache.estimateSize v } with hentry
  have hst2 : (ResultCache.set cfg st commandName args (some v) customTTL now0).2
      = ResultCache.mapSet st1 (ResultCache.generateKey commandName args) entry := by
    simp only [ResultCache.set]
    rw [if_neg (by simp [hsc])]
  have hlook : ResultCache.mapLookup
      (ResultCache.mapSet st1 (ResultCache.generateKey commandName args) entry)
      (ResultCache.generateKey commandName args) = some entry :=
    ResultCache.mapSet_lookup_self st1 _ entry
  have hwf2 : ResultCache.WF
      (ResultCache.mapSet st1 (ResultCache.generateKey commandName args) entry) :=
    ResultCache.mapSet_nodup _ entry hwf1
  constructor
  · intro hlt
    rw [hst2]
    simp only [ResultCache.get]
    rw [hlook]
    simp only
    rw [if_neg (by
      show ¬ now1 > now0 + ResultCache.resolveTTL cfg commandName customTTL
      omega)]
  · intro hgt
    rw [hst2]
    simp only [ResultCache.get]
    rw [hlook]
    simp only
    rw [if_pos (by
      show now1 > now0 + ResultCache.resolveTTL cfg commandName customTTL
      omega)]
    exact ⟨rfl, ResultCache.mapDelete_lookup_self _ hwf2⟩

/-- C6 witness — an `analyze` result with custom TTL 500 stored at time
1000: a hit at 1400 and a lazy-expiry miss at 1600. -/
theorem ResultCache.get_ttl_semantics_witness :
    (1400 < 1000 + ResultCache.resolveTTL ⟨100, 300000⟩ ResultCache.strAnalyze (some 500) →
      (ResultCache.get
        (ResultCache.set ⟨100, 300000⟩ [] ResultCache.strAnalyze []
          (some (.obj [(strSuccess, .bool true)])) (some 500) 1000).2
        ResultCache.strAnalyze [] 1400).1
        = some (ResultCache.withCacheInfo (.obj [(strSuccess, .bool true)]) 1 1000 1400)) ∧
    (1400 > 1000 + ResultCache.resolveTTL ⟨100, 300000⟩ ResultCache.strAnalyze (some 500) →
      (ResultCache.get
        (ResultCache.set ⟨100, 300000⟩ [] ResultCache.strAnalyze []
          (some (.obj [(strSuccess, .bool true)])) (some 500) 1000).2
        ResultCache.strAnalyze [] 1400).1 = none ∧
      ResultCache.mapLookup
        (ResultCache.get
          (ResultCache.set ⟨100, 300000⟩ [] ResultCache.strAnalyze []
            (some (.obj [(strSuccess, .bool true)])) (some 500) 1000).2
          ResultCache.strAnalyze [] 1400).2
        (ResultCache.generateKey ResultCache.strAnalyze []) = none) :=
  ResultCache.get_ttl_semantics ⟨100, 300000⟩ [] ResultCache.strAnalyze []
    (.obj [(strSuccess, .bool true)]) (some 500) 1000 1400
    (by simp [ResultCache.WF]) (by decide)


instance : IsAntisymm (List Nat) ResultCache.keyLe :=
  ⟨fun _ _ h1 h2 => strLe_antisymm h1 h2⟩

theorem ResultCache.insertionSort_eq_of_perm {ks ks' : List (List Nat)}
    (hp : ks.Perm ks') :
    ks.insertionSort ResultCache.keyLe = ks'.insertionSort ResultCache.keyLe := by
  exact List.eq_of_perm_of_sorted
    (((List.perm_insertionSort ResultCache.keyLe ks).trans hp).trans
      (List.perm_insertionSort ResultCache.keyLe ks').symm)
    (List.sorted_insertionSort ResultCache.keyLe ks)
    (List.sorted_insertionSort ResultCache.keyLe ks')

theorem lookupField_perm {fs fs' : List (List Nat × JVal)} (hp : fs.Perm fs') :
    (fs.map Prod.fst).Nodup → ∀ k, lookupField fs k = lookupField fs' k := by
  induction hp with
  | nil =>
    intro _ k
    rfl
  | cons x htl ih =>
    intro hnd k
    cases x with
    | mk kx vx =>
      simp only [List.map_cons] at hnd
      rw [lookupField, lookupField]
      by_cases hk : kx = k
      · rw [if_pos hk, if_pos hk]
      · rw [if_neg hk, if_neg hk]
        exact ih (List.nodup_cons.mp hnd).2 k
  | swap x y l =>
    intro hnd k
    cases x with
    | mk kx vx =>
      cases y with
      | mk ky vy =>
        simp only [List.map_cons, List.nodup_cons, List.mem_cons] at hnd
        have hne : ky ≠ kx := fun hc => hnd.1 (Or.inl hc)
        by_cases hky : ky = k
        · have h2 : ¬ kx = k := fun hc => hne (hky.trans hc.symm)
          simp [lookupField, hky, h2]
        · by_cases hkx : kx = k
          · simp [lookupField, hky, hkx]
          · simp [lookupField, hky, hkx]
  | trans h1 h2 ih1 ih2 =>
    intro hnd k
    rw [ih1 hnd k]
    have hnd2 : (_ : List _).Nodup := hnd.perm (h1.map Prod.fst)
    rw [ih2 hnd2 k]

/-- C4's notion of replacement: an argument is replaced by its
whitespace-trimmed form (for strings) or has its object keys presented in
another order (for objects with distinct keys). -/
inductive ArgEquiv : ResultCache.Arg → ResultCache.Arg → Prop where
  | refl (a : ResultCache.Arg) : ArgEquiv a a
  | trimStr (s : List Nat) : ArgEquiv (.str s) (.str (jsTrim s))
  | permObj (fs fs' : List (List Nat × JVal)) (hperm : fs.Perm fs')
      (hnd : (fs.map Prod.fst).Nodup) : ArgEquiv (.obj fs) (.obj fs')

theorem ArgEquiv_normalize {a a' : ResultCache.Arg} (h : ArgEquiv a a') :
    ResultCache.normalizeArg a = ResultCache.normalizeArg a' := by
  cases h with
  | refl a => rfl
  | trimStr s =>
    show ResultCache.Arg.str (jsToLower (jsTrim s))
        = .str (jsToLower (jsTrim (jsTrim s)))
    rw [jsTrim_idem]
  | permObj fs fs' hp hnd =>
    simp only [ResultCache.normalizeArg]
    have hsort : (fs.map Prod.fst).insertionSort ResultCache.keyLe
        = (fs'.map Prod.fst).insertionSort ResultCache.keyLe :=
      ResultCache.insertionSort_eq_of_perm (hp.map Prod.fst)
    have hfun : (fun k => (k, (lookupField fs k).getD JVal.null))
        = (fun k => (k, (lookupField fs' k).getD JVal.null)) :=
      funext fun k => by rw [lookupField_perm hp hnd k]
    rw [hsort, hfun]

/-- C4 — `_generateKey` returns the same key when any string argument is
replaced by its whitespace-trimmed form and when the keys of any object
argument are presented in a different order. -/
theorem ResultCache.generateKey_invariant (commandName : List Nat)
    {args args' : List ResultCache.Arg} (h : List.Forall₂ ArgEquiv args args') :
    ResultCache.generateKey commandName args
      = ResultCache.generateKey commandName args' := by
  have hnorm : ResultCache.normalizeArgs args = ResultCache.normalizeArgs args' := by
    induction h with
    | nil => rfl
    | cons hab htl ih =>
      show ResultCache.normalizeArg _ :: ResultCache.normalizeArgs _
          = ResultCache.normalizeArg _ :: ResultCache.normalizeArgs _
      rw [ArgEquiv_normalize hab, ih]
  unfold ResultCache.generateKey
  rw [hnorm]

/-- C4 witness — trimming `" Query "` and swapping the keys of
`{b: 1, a: 2}` leave the key unchanged. -/
theorem ResultCache.generateKey_invariant_witness :
    ResultCache.generateKey ResultCache.strAnalyze
      [.str [32, 81, 32], .obj [([98], .num 1), ([97], .num 2)]]
      = ResultCache.generateKey ResultCache.strAnalyze
      [.str (jsTrim [32, 81, 32]), .obj [([97], .num 2), ([98], .num 1)]] :=
  ResultCache.generateKey_invariant ResultCache.strAnalyze
    (List.Forall₂.cons (ArgEquiv.trimStr [32, 81, 32])
      (List.Forall₂.cons
        (ArgEquiv.permObj [([98], JVal.num 1), ([97], JVal.num 2)]
          [([97], JVal.num 2), ([98], JVal.num 1)]
          (List.Perm.swap ([97], JVal.num 2) ([98], JVal.num 1) [])
          (by decide))
        List.Forall₂.nil))


theorem ResultCache.score_lt {e1 e2 : ResultCache.Entry}
    (hhit : e2.hitCount < e1.hitCount) (hacc : e2.lastAccessed < e1.lastAccessed) :
    ResultCache.score e2 < ResultCache.score e1 := by
  unfold ResultCache.score
  have q1 : (e2.hitCount : ℚ) < (e1.hitCount : ℚ) := by exact_mod_cast hhit
  have q2 : (e2.lastAccessed : ℚ) < (e1.lastAccessed : ℚ) := by exact_mod_cast hacc
  linarith

/-- Keys of the non-expired snapshot used for score-based eviction have no
duplicates when the map is well-formed. -/
theorem ResultCache.sorted_keys_nodup {st : ResultCache.CacheMap} (now : Nat)
    (hwf : ResultCache.WF st) :
    ((((st.filter fun kv => ¬ kv.2.expiresAt < now).insertionSort
      ResultCache.scoreLe).map Prod.fst)).Nodup := by
  have hsub : ((st.filter fun kv => ¬ kv.2.expiresAt < now).map Prod.fst).Sublist
      (st.map Prod.fst) := (List.filter_sublist _).map Prod.fst
  have hnd : ((st.filter fun kv => ¬ kv.2.expiresAt < now).map Prod.fst).Nodup :=
    hwf.sublist hsub
  have hperm := (List.perm_insertionSort ResultCache.scoreLe
    (st.filter fun kv => ¬ kv.2.expiresAt < now)).map Prod.fst
  exact hnd.perm hperm.symm

/-- If the map is well-formed and the cache is exactly at its limit,
eviction strictly reduces the entry count below the limit. -/
theorem ResultCache.evictOldEntries_length {cfg : ResultCache.Config}
    {st : ResultCache.CacheMap} {now : Nat}
    (hwf : ResultCache.WF st) (hM : 1 ≤ cfg.maxSize) (hL : st.length = cfg.maxSize) :
    (ResultCache.evictOldEntries cfg st now).length < cfg.maxSize := by
  unfold ResultCache.evictOldEntries
  simp only
  have hexpnd : ((st.filter fun kv => kv.2.expiresAt < now).map Prod.fst).Nodup :=
    hwf.sublist ((List.filter_sublist _).map Prod.fst)
  have hexppres : ∀ k ∈ (st.filter fun kv => kv.2.expiresAt < now).map Prod.fst,
      ResultCache.mapLookup st k ≠ none := by
    intro k hk
    rcases List.mem_map.mp hk with ⟨kv, hkv, hfst⟩
    have hmem : kv ∈ st := (List.mem_filter.mp hkv).1
    cases kv with
    | mk k0 e0 =>
      cases hfst
      rw [ResultCache.mapLookup_of_mem hwf hmem]
      simp
  have hst1 := ResultCache.deleteAll_length_eq hwf hexpnd hexppres
  split
  · rename_i hcond
    have hdel_le := ResultCache.deleteAll_length_le st
      ((st.filter fun kv => kv.2.expiresAt < now).map Prod.fst)
    have hexp0 : ((st.filter fun kv => kv.2.expiresAt < now).map Prod.fst).length = 0 := by
      omega
    have hfilnil : (st.filter fun kv => kv.2.expiresAt < now) = [] :=
      List.map_eq_nil_iff.mp (List.length_eq_zero.mp hexp0)
    have hst1eq : ResultCache.deleteAll st
        ((st.filter fun kv => kv.2.expiresAt < now).map Prod.fst) = st := by
      rw [hfilnil]
      rfl
    have hfilall : (st.filter fun kv => ¬ kv.2.expiresAt < now) = st := by
      apply List.filter_eq_self.mpr
      intro kv hkv
      by_contra hc
      have : kv ∈ st.filter fun kv => kv.2.expiresAt < now :=
        List.mem_filter.mpr ⟨hkv, by simpa using hc⟩
      rw [hfilnil] at this
      cases this
    rw [hst1eq]
    set sorted := (st.filter fun kv => ¬ kv.2.expiresAt < now).insertionSort
      ResultCache.scoreLe with hsorted
    have hsortlen : sorted.length = st.length := by
      rw [hsorted]
      rw [(List.perm_insertionSort ResultCache.scoreLe _).length_eq, hfilall]
    have htakend : ((sorted.take (ResultCache.ceilFifth cfg.maxSize)).map Prod.fst).Nodup :=
      (ResultCache.sorted_keys_nodup now hwf).sublist
        ((List.take_sublist _ _).map Prod.fst)
    have htakepres : ∀ k ∈ (sorted.take (ResultCache.ceilFifth cfg.maxSize)).map Prod.fst,
        ResultCache.mapLookup st k ≠ none := by
      intro k hk
      rcases List.mem_map.mp hk with ⟨kv, hkv, hfst⟩
      have hmem1 : kv ∈ sorted := List.take_subset _ _ hkv
      have hmem2 : kv ∈ st := by
        rw [hsorted] at hmem1
        have hmemfil := (List.perm_insertionSort ResultCache.scoreLe _).mem_iff.mp hmem1
        exact (List.mem_filter.mp hmemfil).1
      cases kv with
      | mk k0 e0 =>
        cases hfst
        rw [ResultCache.mapLookup_of_mem hwf hmem2]
        simp
    have hlen2 := ResultCache.deleteAll_length_eq hwf htakend htakepres
    have htakelen : ((sorted.take (ResultCache.ceilFifth cfg.maxSize)).map Prod.fst).length
        = min (ResultCache.ceilFifth cfg.maxSize) sorted.length := by
      simp
    have hceil : 1 ≤ ResultCache.ceilFifth cfg.maxSize := by
      unfold ResultCache.ceilFifth
      omega
    omega
  · rename_i hcond
    omega

theorem ResultCache.evictOldEntries_removes_expired {cfg : ResultCache.Config}
    {st : ResultCache.CacheMap} {now : Nat} {k : List Nat} {e : ResultCache.Entry}
    (hwf : ResultCache.WF st) (hmem : (k, e) ∈ st) (hexp : e.expiresAt < now) :
    ResultCache.mapLookup (ResultCache.evictOldEntries cfg st now) k = none := by
  unfold ResultCache.evictOldEntries
  simp only
  have hkmem : k ∈ (st.filter fun kv => kv.2.expiresAt < now).map Prod.fst :=
    List.mem_map.mpr ⟨(k, e), List.mem_filter.mpr ⟨hmem, by simpa using hexp⟩, rfl⟩
  have h1 := ResultCache.deleteAll_lookup_of_mem hwf hkmem
  split
  · exact ResultCache.deleteAll_lookup_none _ h1
  · exact h1

/-- Score-order non-inversion of eviction: among live (non-expired) entries,
if an entry with strictly higher hit count and strictly later last access is
evicted, then every entry with both strictly lower is evicted too. -/
theorem ResultCache.evictOldEntries_score_order {cfg : ResultCache.Config}
    {st : ResultCache.CacheMap} {now : Nat}
    {kA kB : List Nat} {eA eB : ResultCache.Entry}
    (hwf : ResultCache.WF st)
    (hA : (kA, eA) ∈ st) (hB : (kB, eB) ∈ st)
    (hAlive : ¬ eA.expiresAt < now) (hBlive : ¬ eB.expiresAt < now)
    (hhit : eB.hitCount < eA.hitCount) (hacc : eB.lastAccessed < eA.lastAccessed)
    (hAgone : ResultCache.mapLookup (ResultCache.evictOldEntries cfg st now) kA = none) :
    ResultCache.mapLookup (ResultCache.evictOldEntries cfg st now) kB = none := by
  have hAnotexp : kA ∉ (st.filter fun kv => kv.2.expiresAt < now).map Prod.fst := by
    intro hc
    rcases List.mem_map.mp hc with ⟨kv, hkv, hfst⟩
    have hmem : kv ∈ st := (List.mem_filter.mp hkv).1
    have hexp : kv.2.expiresAt < now := by
      have := (List.mem_filter.mp hkv).2
      simpa using this
    have heq : kv.2 = eA := by
      have hkv2 : (kA, kv.2) ∈ st := by
        cases kv with
        | mk k0 e0 => cases hfst; exact hmem
      exact ResultCache.mem_unique hwf hkv2 hA
    rw [heq] at hexp
    exact hAlive hexp
  have hwf1 : ResultCache.WF (ResultCache.deleteAll st
      ((st.filter fun kv => kv.2.expiresAt < now).map Prod.fst)) :=
    ResultCache.deleteAll_nodup _ hwf
  have hlookA : ResultCache.mapLookup (ResultCache.deleteAll st
      ((st.filter fun kv => kv.2.expiresAt < now).map Prod.fst)) kA = some eA := by
    rw [ResultCache.deleteAll_lookup_not_mem hAnotexp]
    exact ResultCache.mapLookup_of_mem hwf hA
  have hev : ResultCache.evictOldEntries cfg st now =
      (if (ResultCache.deleteAll st
          ((st.filter fun kv => kv.2.expiresAt < now).map Prod.fst)).length ≥ cfg.maxSize then
        ResultCache.deleteAll (ResultCache.deleteAll st
          ((st.filter fun kv => kv.2.expiresAt < now).map Prod.fst))
          ((((st.filter fun kv => ¬ kv.2.expiresAt < now).insertionSort
            ResultCache.scoreLe).take (ResultCache.ceilFifth cfg.maxSize)).map Prod.fst)
      else ResultCache.deleteAll st
        ((st.filter fun kv => kv.2.expiresAt < now).map Prod.fst)) := rfl
  rw [hev] at hAgone ⊢
  by_cases hcond : (ResultCache.deleteAll st
      ((st.filter fun kv => kv.2.expiresAt < now).map Prod.fst)).length ≥ cfg.maxSize
  case neg =>
    rw [if_neg hcond] at hAgone
    rw [hlookA] at hAgone
    cases hAgone
  case pos =>
    rw [if_pos hcond] at hAgone ⊢
    set sorted := (st.filter fun kv => ¬ kv.2.expiresAt < now).insertionSort
      ResultCache.scoreLe with hsorted
    set r := ResultCache.ceilFifth cfg.maxSize with hr
    have hAin : kA ∈ (sorted.take r).map Prod.fst := by
      by_contra hc
      rw [ResultCache.deleteAll_lookup_not_mem hc, hlookA] at hAgone
      cases hAgone
    rcases List.mem_map.mp hAin with ⟨kvA, hkvA, hfstA⟩
    have hkvAmem : kvA ∈ st := by
      have h1 : kvA ∈ sorted := List.take_subset _ _ hkvA
      rw [hsorted] at h1
      have h2 := (List.perm_insertionSort ResultCache.scoreLe _).mem_iff.mp h1
      exact (List.mem_filter.mp h2).1
    have hkvAeq : kvA = (kA, eA) := by
      cases kvA with
      | mk k0 e0 =>
        cases hfstA
        have : e0 = eA := ResultCache.mem_unique hwf hkvAmem hA
        rw [this]
    rw [hkvAeq] at hkvA
    have hBsorted : (kB, eB) ∈ sorted := by
      rw [hsorted]
      refine (List.perm_insertionSort ResultCache.scoreLe _).symm.mem_iff.mp ?_
      exact List.mem_filter.mpr ⟨hB, by simpa using hBlive⟩
    rcases List.getElem_of_mem hkvA with ⟨i, hi, hgeti⟩
    rcases List.getElem_of_mem hBsorted with ⟨j, hj, hgetj⟩
    have hir : i < r := lt_of_lt_of_le hi (by simp [List.length_take])
    have hile : i < sorted.length := by
      have := hi
      simp [List.length_take] at this
      omega
    have hgetiS : sorted.get ⟨i, hile⟩ = (kA, eA) := by
      simp only [List.get_eq_getElem]
      rw [← List.getElem_take sorted]
      exact hgeti
    simp only [List.get_eq_getElem] at hgetiS
    have hjr : j < r := by
      by_contra hc
      push_neg at hc
      have hij : i < j := lt_of_lt_of_le hir hc
      have hpw := List.pairwise_iff_getElem.mp
        (List.sorted_insertionSort ResultCache.scoreLe
          (st.filter fun kv => ¬ kv.2.expiresAt < now))
      have hle : ResultCache.scoreLe (sorted.get ⟨i, hile⟩) (sorted.get ⟨j, hj⟩) :=
        hpw i j hile hj hij
      simp only [List.get_eq_getElem] at hle
      rw [hgetiS, hgetj] at hle
      have hsc : ResultCache.score eB < ResultCache.score eA :=
        ResultCache.score_lt hhit hacc
      have : ResultCache.score eA ≤ ResultCache.score eB := hle
      linarith
    have hBtake : (kB, eB) ∈ sorted.take r := by
      have hjt : j < (sorted.take r).length := by
        simp [List.length_take]
        omega
      have hget : (sorted.take r).get ⟨j, hjt⟩ = (kB, eB) := by
        simp only [List.get_eq_getElem]
        rw [List.getElem_take sorted]
        exact hgetj
      rw [← hget]
      exact List.get_mem _ j hjt
    exact ResultCache.deleteAll_lookup_of_mem hwf1
      (List.mem_map.mpr ⟨(kB, eB), hBtake, rfl⟩)

/-- C3: after every `set` on a well-formed cache that respects the configured
maximum, the number of stored entries never exceeds that maximum; when
eviction runs, every expired entry is removed, and among live entries one
with strictly higher hit count and strictly later last access is never
evicted while an entry with both strictly lower survives. -/
theorem ResultCache.set_eviction_invariant
    (cfg : ResultCache.Config) (st : ResultCache.CacheMap)
    (commandName : List Nat) (args : List ResultCache.Arg)
    (result : Option JVal) (customTTL : Option Nat) (now : Nat)
    (hwf : ResultCache.WF st) (hM : 1 ≤ cfg.maxSize) (hL : st.length ≤ cfg.maxSize) :
    (ResultCache.set cfg st commandName args result customTTL now).2.length ≤ cfg.maxSize
    ∧ (∀ k e, (k, e) ∈ st → e.expiresAt < now →
        ResultCache.mapLookup (ResultCache.evictOldEntries cfg st now) k = none)
    ∧ (∀ kA eA kB eB, (kA, eA) ∈ st → (kB, eB) ∈ st →
        ¬ eA.expiresAt < now → ¬ eB.expiresAt < now →
        eB.hitCount < eA.hitCount → eB.lastAccessed < eA.lastAccessed →
        ResultCache.mapLookup (ResultCache.evictOldEntries cfg st now) kA = none →
        ResultCache.mapLookup (ResultCache.evictOldEntries cfg st now) kB = none) := by
  refine ⟨?_, ?_, ?_⟩
  · cases result with
    | none => exact hL
    | some v =>
      rw [ResultCache.set]
      by_cases hsc : ResultCache.shouldCache commandName v
      · rw [if_neg (by simpa using hsc)]
        simp only
        by_cases hne : ResultCache.needsEviction cfg st = true
        · rw [if_pos hne]
          have hge : st.length ≥ cfg.maxSize := by
            have := hne
            unfold ResultCache.needsEviction at this
            simpa using this
          have heq : st.length = cfg.maxSize := le_antisymm hL hge
          have hlt := @ResultCache.evictOldEntries_length cfg st now hwf hM heq
          refine le_trans (ResultCache.mapSet_length_le _ _ _) ?_
          omega
        · rw [if_neg hne]
          have hlt : st.length < cfg.maxSize := by
            unfold ResultCache.needsEviction at hne
            simp at hne
            exact hne
          refine le_trans (ResultCache.mapSet_length_le _ _ _) ?_
          omega
      · rw [if_pos (by simpa using hsc)]
        exact hL
  · intro k e hmem hexp
    exact ResultCache.evictOldEntries_removes_expired hwf hmem hexp
  · intro kA eA kB eB hA hB hAlive hBlive hhit hacc hAgone
    exact ResultCache.evictOldEntries_score_order hwf hA hB hAlive hBlive hhit hacc hAgone

theorem ResultCache.set_eviction_invariant_witness :
    ResultCache.WF ([] : ResultCache.CacheMap) ∧ (1 : Nat) ≤ 1 ∧
    ([] : ResultCache.CacheMap).length ≤ 1 ∧
    ((ResultCache.set ⟨1, 300000⟩ [] ResultCache.strAnalyze [] none none 0).2.length ≤ 1
      ∧ (∀ k e, (k, e) ∈ ([] : ResultCache.CacheMap) → e.expiresAt < 0 →
          ResultCache.mapLookup (ResultCache.evictOldEntries ⟨1, 300000⟩ [] 0) k = none)
      ∧ (∀ kA eA kB eB, (kA, eA) ∈ ([] : ResultCache.CacheMap) →
          (kB, eB) ∈ ([] : ResultCache.CacheMap) →
          ¬ eA.expiresAt < 0 → ¬ eB.expiresAt < 0 →
          eB.hitCount < eA.hitCount → eB.lastAccessed < eA.lastAccessed →
          ResultCache.mapLookup (ResultCache.evictOldEntries ⟨1, 300000⟩ [] 0) kA = none →
          ResultCache.mapLookup (ResultCache.evictOldEntries ⟨1, 300000⟩ [] 0) kB = none)) :=
  ⟨List.nodup_nil, by decide, by decide,
    ResultCache.set_eviction_invariant ⟨1, 300000⟩ [] ResultCache.strAnalyze [] none none 0
      List.nodup_nil (by decide) (by decide)⟩

namespace ProgressManager

/-- A tracked progress context (an `activeCommands` entry), restricted to
the fields `cancelCommand` reads. -/
structure Ctx where
  commandName : List Nat
  startTime : Nat
  currentStep : Nat
  totalSteps : Nat
  status : List Nat
  message : List Nat
  cancelled : Bool

/-- The `activeCommands` map, in insertion order. -/
abbrev ActiveMap := List (List Nat × Ctx)

/-- `Map.prototype.get` on `activeCommands`. -/
def amLookup : ActiveMap → List Nat → Option Ctx
  | [], _ => none
  | (k', c) :: rest, k => if k' = k then some c else amLookup rest k

/-- `Map.prototype.delete` on `activeCommands`. -/
def amDelete : ActiveMap → List Nat → ActiveMap
  | [], _ => []
  | (k', c) :: rest, k => if k' = k then rest else (k', c) :: amDelete rest k

/-- `Math.round((currentStep / totalSteps) * 100)` on natural inputs. -/
def roundPct (c t : Nat) : Nat := (200 * c + t) / (2 * t)

/-- `'cancelled'`. -/
def strCancelled : List Nat := [99, 97, 110, 99, 101, 108, 108, 101, 100]

/-- Events emitted through the EventEmitter, as observed by listeners. -/
inductive PMEvent where
  | progress (id commandName : List Nat) (pct : Nat) (status message : List Nat)
  | cancelled (id commandName reason : List Nat)

/-- What one `cancelCommand` call returns and does: the returned boolean,
the map of live contexts after the call, how many times the call invoked
`abortController.abort()`, and the events it emitted, in order. -/
structure CancelResult where
  ok : Bool
  active : ActiveMap
  aborts : Nat
  events : List PMEvent

/-- `cancelCommand(commandId, reason)`: a missing or already-cancelled
context returns false with no effect; otherwise the context is marked
cancelled, its controller is aborted once, a progress event and a
cancelled event are emitted, the context is dropped from the live map and
the call returns true. -/
def cancelCommand (active : ActiveMap) (id reason : List Nat) : CancelResult :=
  match amLookup active id with
  | none => ⟨false, active, 0, []⟩
  | some ctx =>
    if ctx.cancelled then ⟨false, active, 0, []⟩
    else
      ⟨true, amDelete active id, 1,
        [PMEvent.progress id ctx.commandName (roundPct ctx.currentStep ctx.totalSteps)
          strCancelled reason,
         PMEvent.cancelled id ctx.commandName reason]⟩

/-- The event is a `cancelled` event. -/
def isCancelledEvent : PMEvent → Bool
  | .cancelled _ _ _ => true
  | _ => false

/-- Key uniqueness of the `activeCommands` map (a JS `Map`). -/
def WF (m : ActiveMap) : Prop := (m.map Prod.fst).Nodup

theorem mem_of_amLookup : ∀ {m : ActiveMap} {k : List Nat} {c : Ctx},
    amLookup m k = some c → (k, c) ∈ m
  | [], _, _, h => by cases h
  | (k0, c0) :: rest, k, c, h => by
    rw [amLookup] at h
    by_cases hk : k0 = k
    · rw [if_pos hk] at h
      cases h
      exact List.mem_cons.mpr (Or.inl (by rw [hk]))
    · rw [if_neg hk] at h
      exact List.mem_cons.mpr (Or.inr (mem_of_amLookup h))

theorem amDelete_lookup_self {m : ActiveMap} (k : List Nat) (hwf : WF m) :
    amLookup (amDelete m k) k = none := by
  induction m with
  | nil => rfl
  | cons kv rest ih =>
    cases kv with
    | mk k0 c0 =>
      rw [amDelete]
      by_cases hk : k0 = k
      · rw [if_pos hk]
        subst hk
        cases hl : amLookup rest k0 with
        | none => rfl
        | some c =>
          exfalso
          have : (k0, c) ∈ rest := mem_of_amLookup hl
          exact (List.nodup_cons.mp hwf).1 (List.mem_map.mpr ⟨(k0, c), this, rfl⟩)
      · rw [if_neg hk, amLookup, if_neg hk]
        exact ih (List.nodup_cons.mp hwf).2

end ProgressManager

/-- C5: the cancellation controller of a progress context is triggered
exactly once: the first cancelCommand on a live, not-yet-cancelled context
returns true, aborts the controller once, emits exactly one cancelled
event, and removes the context from the live map; a second cancelCommand
on the same id, and any cancelCommand on an unknown id, returns false,
aborts nothing and emits nothing. -/
theorem ProgressManager.cancelCommand_exactly_once
    (active : ProgressManager.ActiveMap) (id reason reason2 : List Nat)
    (ctx : ProgressManager.Ctx)
    (hwf : ProgressManager.WF active)
    (hlive : ProgressManager.amLookup active id = some ctx)
    (hnc : ctx.cancelled = false) :
    (ProgressManager.cancelCommand active id reason).ok = true
    ∧ (ProgressManager.cancelCommand active id reason).aborts = 1
    ∧ ((ProgressManager.cancelCommand active id reason).events.filter
        ProgressManager.isCancelledEvent).length = 1
    ∧ ProgressManager.amLookup
        (ProgressManager.cancelCommand active id reason).active id = none
    ∧ ProgressManager.cancelCommand
        (ProgressManager.cancelCommand active id reason).active id reason2 =
      ⟨false, (ProgressManager.cancelCommand active id reason).active, 0, []⟩
    ∧ (∀ idU reasonU, ProgressManager.amLookup active idU = none →
        ProgressManager.cancelCommand active idU reasonU = ⟨false, active, 0, []⟩) := by
  have hC : ProgressManager.cancelCommand active id reason =
      ⟨true, ProgressManager.amDelete active id, 1,
        [ProgressManager.PMEvent.progress id ctx.commandName
          (ProgressManager.roundPct ctx.currentStep ctx.totalSteps)
          ProgressManager.strCancelled reason,
         ProgressManager.PMEvent.cancelled id ctx.commandName reason]⟩ := by
    rw [ProgressManager.cancelCommand.eq_def, hlive]
    simp [hnc]
  have hgone : ProgressManager.amLookup (ProgressManager.amDelete active id) id = none :=
    ProgressManager.amDelete_lookup_self id hwf
  refine ⟨by rw [hC], by rw [hC], by rw [hC]; rfl, ?_, ?_, ?_⟩
  · rw [hC]
    exact hgone
  · rw [hC]
    rw [ProgressManager.cancelCommand.eq_def, hgone]
  · intro idU reasonU hU
    rw [ProgressManager.cancelCommand.eq_def, hU]

theorem ProgressManager.cancelCommand_exactly_once_witness :
    ProgressManager.WF [([99], ProgressManager.Ctx.mk [110] 0 0 10 [] [] false)]
    ∧ ProgressManager.amLookup [([99], ProgressManager.Ctx.mk [110] 0 0 10 [] [] false)] [99]
        = some (ProgressManager.Ctx.mk [110] 0 0 10 [] [] false)
    ∧ (ProgressManager.Ctx.mk [110] 0 0 10 [] [] false).cancelled = false
    ∧ ((ProgressManager.cancelCommand
          [([99], ProgressManager.Ctx.mk [110] 0 0 10 [] [] false)] [99] [114]).ok = true
      ∧ (ProgressManager.cancelCommand
          [([99], ProgressManager.Ctx.mk [110] 0 0 10 [] [] false)] [99] [114]).aborts = 1
      ∧ ((ProgressManager.cancelCommand
          [([99], ProgressManager.Ctx.mk [110] 0 0 10 [] [] false)] [99] [114]).events.filter
            ProgressManager.isCancelledEvent).length = 1
      ∧ ProgressManager.amLookup
          (ProgressManager.cancelCommand
            [([99], ProgressManager.Ctx.mk [110] 0 0 10 [] [] false)] [99] [114]).active [99]
          = none
      ∧ ProgressManager.cancelCommand
          (ProgressManager.cancelCommand
            [([99], ProgressManager.Ctx.mk [110] 0 0 10 [] [] false)] [99] [114]).active
          [99] [115] =
        ⟨false, (ProgressManager.cancelCommand
            [([99], ProgressManager.Ctx.mk [110] 0 0 10 [] [] false)] [99] [114]).active, 0, []⟩
      ∧ (∀ idU reasonU,
          ProgressManager.amLookup
            [([99], ProgressManager.Ctx.mk [110] 0 0 10 [] [] false)] idU = none →
          ProgressManager.cancelCommand
            [([99], ProgressManager.Ctx.mk [110] 0 0 10 [] [] false)] idU reasonU =
            ⟨false, [([99], ProgressManager.Ctx.mk [110] 0 0 10 [] [] false)], 0, []⟩)) :=
  ⟨by simp [ProgressManager.WF], rfl, rfl,
    ProgressManager.cancelCommand_exactly_once
      [([99], ProgressManager.Ctx.mk [110] 0 0 10 [] [] false)] [99] [114] [115]
      (ProgressManager.Ctx.mk [110] 0 0 10 [] [] false)
      (by simp [ProgressManager.WF]) rfl rfl⟩

namespace ProgressManager

/-- A JavaScript number: NaN, an infinity, or a finite value. -/
inductive JsNum where
  | nan
  | posInf
  | negInf
  | fin (q : ℚ)
deriving DecidableEq

/-- `Number.isFinite`. -/
def JsNum.isFinite : JsNum → Bool
  | .fin _ => true
  | _ => false

/-- JavaScript truthiness of a number: `0` and `NaN` are falsy. -/
def JsNum.truthy : JsNum → Bool
  | .nan => false
  | .fin q => decide (q ≠ 0)
  | _ => true

/-- A raw JavaScript option value before any numeric coercion, abstracted
by the two attributes this code path reads from it: its truthiness (what
`||` tests) and the number `ToNumber` coerces it to (what `Number(x)`
returns and what the arithmetic of `Math.max` uses). `undefined` is
⟨false, nan⟩, a number `n` is ⟨n.truthy, n⟩, the non-numeric string
`'abc'` is ⟨true, nan⟩, the string `'0'` is ⟨true, fin 0⟩. -/
structure JsVal where
  truthy : Bool
  toNumber : JsNum
deriving DecidableEq

/-- JavaScript `a || b` on raw values. -/
def jsOrV (a b : JsVal) : JsVal := if a.truthy then a else b

/-- `Math.max(1, x)` on the number `x` was coerced to. -/
def jsMaxOne : JsNum → JsNum
  | .nan => .nan
  | .posInf => .posInf
  | .negInf => .fin 1
  | .fin q => .fin (max 1 q)

/-- `Math.min(a, b)`. -/
def jsMin : JsNum → JsNum → JsNum
  | .nan, _ => .nan
  | _, .nan => .nan
  | .negInf, _ => .negInf
  | _, .negInf => .negInf
  | .posInf, b => b
  | a, .posInf => a
  | .fin p, .fin q => .fin (min p q)

/-- JavaScript `x >= 1` (`NaN >= 1` is false). -/
def JsNum.geOne : JsNum → Bool
  | .nan => false
  | .posInf => true
  | .negInf => false
  | .fin q => decide (1 ≤ q)

/-- JavaScript `x > 0` (`NaN > 0` is false), the guard of the
estimated-time-remaining computation. -/
def JsNum.gtZero : JsNum → Bool
  | .nan => false
  | .posInf => true
  | .negInf => false
  | .fin q => decide (0 < q)

/-- The numeric fields of a progress context that the percentage and
time-remaining computations divide by. -/
structure PCtx where
  currentStep : JsNum
  totalSteps : JsNum

/-- `createProgress`: `sanitizedSteps = Number(estimatedSteps)` followed by
`totalSteps = Number.isFinite(sanitizedSteps) ? Math.max(1, sanitizedSteps)
: 10`, stated here on the already-coerced number. -/
def createTotalSteps (sanitizedSteps : JsNum) : JsNum :=
  if sanitizedSteps.isFinite then jsMaxOne sanitizedSteps else .fin 10

/-- The constructor's `this.maxSteps = options.maxSteps || 100` on the raw
option value: `||` selects the raw value, no coercion happens here. -/
def ctorMaxSteps (optionsMaxSteps : JsVal) : JsVal :=
  jsOrV optionsMaxSteps ⟨true, .fin 100⟩

/-- `startProgress`: `totalSteps = Math.max(1, options.totalSteps ||
this.maxSteps)`: `||` acts on the raw option value, and only `Math.max`
coerces its argument to a number. -/
def startTotalSteps (optTotalSteps maxSteps : JsVal) : JsNum :=
  jsMaxOne (jsOrV optTotalSteps maxSteps).toNumber

/-- The context built by `createProgress` (`currentStep: 0`) from the raw
`estimatedSteps` argument, which `Number(...)` coerces first. -/
def createProgressCtx (estimatedSteps : JsVal) : PCtx :=
  ⟨.fin 0, createTotalSteps estimatedSteps.toNumber⟩

/-- The context built by `startProgress` (`currentStep: 0`) from the raw
`options.totalSteps` value and the constructor-computed `maxSteps`. -/
def startProgressCtx (optTotalSteps maxSteps : JsVal) : PCtx :=
  ⟨.fin 0, startTotalSteps optTotalSteps maxSteps⟩

/-- `updateProgress` step write: `context.currentStep = Math.min(update.step,
context.totalSteps)`; `totalSteps` itself is never reassigned. -/
def updateCtx (ctx : PCtx) (step : JsNum) : PCtx :=
  ⟨jsMin step ctx.totalSteps, ctx.totalSteps⟩

theorem JsNum.truthy_not_nan {a : JsNum} (h : a.truthy = true) : a ≠ .nan := by
  cases a with
  | nan => cases h
  | posInf => intro hc; cases hc
  | negInf => intro hc; cases hc
  | fin q => intro hc; cases hc

theorem geOne_jsMaxOne {a : JsNum} (h : a ≠ .nan) : (jsMaxOne a).geOne = true := by
  cases a with
  | nan => exact absurd rfl h
  | posInf => rfl
  | negInf => simp [jsMaxOne, JsNum.geOne]
  | fin q => simp [jsMaxOne, JsNum.geOne, le_max_left]

theorem geOne_createTotalSteps (n : JsNum) : (createTotalSteps n).geOne = true := by
  cases n with
  | nan => rfl
  | posInf => rfl
  | negInf => rfl
  | fin q =>
    show (jsMaxOne (.fin q)).geOne = true
    exact geOne_jsMaxOne (by intro hc; cases hc)

end ProgressManager

/-- C10 counterexample — a truthy non-numeric estimate breaks the claim
for startProgress: the string `'abc'` (truthy, coercing to NaN) passes
`options.totalSteps || this.maxSteps` as the raw value, `Math.max(1,
'abc')` coerces it to NaN, and the created context stores
`totalSteps = NaN`, which does not satisfy `totalSteps >= 1`. -/
theorem ProgressManager.startProgress_nonNumeric_totalSteps_nan :
    (ProgressManager.startProgressCtx ⟨true, .nan⟩
        (ProgressManager.ctorMaxSteps ⟨false, .nan⟩)).totalSteps = .nan
    ∧ (ProgressManager.startProgressCtx ⟨true, .nan⟩
        (ProgressManager.ctorMaxSteps ⟨false, .nan⟩)).totalSteps.geOne = false :=
  ⟨rfl, rfl⟩

/-- C10 (amended): a context created by createProgress has totalSteps at
least 1 for every raw estimate (non-numeric, non-finite, zero and negative
values are replaced or clamped); a context created by startProgress has
totalSteps at least 1 whenever the step source selected by `||`
(options.totalSteps if truthy, else the manager's maxSteps) coerces to a
number other than NaN, in particular for every numeric estimate and
numeric (or absent) maxSteps option; updateProgress never reassigns
totalSteps; and for a context satisfying the invariant the divisors of the
percentage and time-remaining computations - totalSteps, and currentStep
under its positivity guard - are never zero. -/
theorem ProgressManager.totalSteps_positive_amended
    (estimatedSteps optTotalSteps optionsMaxSteps : ProgressManager.JsVal) :
    (ProgressManager.createProgressCtx estimatedSteps).totalSteps.geOne = true
    ∧ ((ProgressManager.jsOrV optTotalSteps
          (ProgressManager.ctorMaxSteps optionsMaxSteps)).toNumber ≠ .nan →
        (ProgressManager.startProgressCtx optTotalSteps
          (ProgressManager.ctorMaxSteps optionsMaxSteps)).totalSteps.geOne = true)
    ∧ (∀ n m : ProgressManager.JsNum,
        (ProgressManager.startProgressCtx ⟨n.truthy, n⟩
          (ProgressManager.ctorMaxSteps ⟨m.truthy, m⟩)).totalSteps.geOne = true)
    ∧ (∀ ctx step, (ProgressManager.updateCtx ctx step).totalSteps = ctx.totalSteps)
    ∧ (∀ ts : ProgressManager.JsNum, ts.geOne = true → ts ≠ .fin 0)
    ∧ (∀ cs : ProgressManager.JsNum, cs.gtZero = true → cs ≠ .fin 0) := by
  refine ⟨ProgressManager.geOne_createTotalSteps _, ?_, ?_, fun ctx step => rfl, ?_, ?_⟩
  · intro h
    exact ProgressManager.geOne_jsMaxOne h
  · intro n m
    show (ProgressManager.jsMaxOne (ProgressManager.jsOrV ⟨n.truthy, n⟩
      (ProgressManager.ctorMaxSteps ⟨m.truthy, m⟩)).toNumber).geOne = true
    refine ProgressManager.geOne_jsMaxOne ?_
    unfold ProgressManager.jsOrV ProgressManager.ctorMaxSteps ProgressManager.jsOrV
    by_cases hn : ProgressManager.JsNum.truthy n = true
    · rw [if_pos hn]
      exact ProgressManager.JsNum.truthy_not_nan hn
    · rw [if_neg hn]
      by_cases hm : ProgressManager.JsNum.truthy m = true
      · rw [if_pos hm]
        exact ProgressManager.JsNum.truthy_not_nan hm
      · rw [if_neg hm]
        intro hc
        cases hc
  · intro ts h
    cases ts with
    | nan => cases h
    | posInf => intro hc; cases hc
    | negInf => cases h
    | fin q =>
      intro hc
      have hq : (1 : ℚ) ≤ q := by simpa [ProgressManager.JsNum.geOne] using h
      have : q = 0 := by
        injection hc
      rw [this] at hq
      linarith
  · intro cs h
    cases cs with
    | nan => cases h
    | posInf => intro hc; cases hc
    | negInf => cases h
    | fin q =>
      intro hc
      have hq : (0 : ℚ) < q := by simpa [ProgressManager.JsNum.gtZero] using h
      have : q = 0 := by
        injection hc
      rw [this] at hq
      linarith

theorem ProgressManager.totalSteps_positive_amended_witness :
    (ProgressManager.createProgressCtx ⟨true, .nan⟩).totalSteps.geOne = true
    ∧ ((ProgressManager.jsOrV ⟨false, .nan⟩
          (ProgressManager.ctorMaxSteps ⟨false, .nan⟩)).toNumber ≠ .nan
      ∧ (ProgressManager.startProgressCtx ⟨false, .nan⟩
          (ProgressManager.ctorMaxSteps ⟨false, .nan⟩)).totalSteps.geOne = true)
    ∧ (ProgressManager.startProgressCtx
        ⟨(ProgressManager.JsNum.fin 3).truthy, .fin 3⟩
        (ProgressManager.ctorMaxSteps
          ⟨(ProgressManager.JsNum.nan).truthy, .nan⟩)).totalSteps.geOne = true
    ∧ (ProgressManager.updateCtx ⟨.fin 0, .fin 10⟩ (.fin 25)).totalSteps = .fin 10
    ∧ ((ProgressManager.JsNum.fin 10).geOne = true ∧ ProgressManager.JsNum.fin 10 ≠ .fin 0)
    ∧ ((ProgressManager.JsNum.fin 3).gtZero = true ∧ ProgressManager.JsNum.fin 3 ≠ .fin 0) :=
  ⟨(ProgressManager.totalSteps_positive_amended ⟨true, .nan⟩ ⟨false, .nan⟩ ⟨false, .nan⟩).1,
   ⟨by decide,
    (ProgressManager.totalSteps_positive_amended ⟨true, .nan⟩ ⟨false, .nan⟩
      ⟨false, .nan⟩).2.1 (by decide)⟩,
   (ProgressManager.totalSteps_positive_amended ⟨true, .nan⟩ ⟨false, .nan⟩
      ⟨false, .nan⟩).2.2.1 (.fin 3) .nan,
   (ProgressManager.totalSteps_positive_amended ⟨true, .nan⟩ ⟨false, .nan⟩
      ⟨false, .nan⟩).2.2.2.1 ⟨.fin 0, .fin 10⟩ (.fin 25),
   ⟨by decide,
    (ProgressManager.totalSteps_positive_amended ⟨true, .nan⟩ ⟨false, .nan⟩
      ⟨false, .nan⟩).2.2.2.2.1 (.fin 10) (by decide)⟩,
   ⟨by decide,
    (ProgressManager.totalSteps_positive_amended ⟨true, .nan⟩ ⟨false, .nan⟩
      ⟨false, .nan⟩).2.2.2.2.2 (.fin 3) (by decide)⟩⟩

namespace OptimizedBridge

/-- An external AbortSignal as `executeCommand` can observe it: whether it
is already aborted when the call combines it, and whether it fires an
abort event at some later point during the run. A signal aborts at most
once, so a pre-aborted signal never fires again. -/
structure ExtSignal where
  abortedAtCall : Bool
  firesDuringRun : Bool
deriving DecidableEq

/-- EventTarget semantics of `options.signal.addEventListener('abort',
listener, { once: true })`: a listener registered after the signal has
already aborted never fires; it fires only on a subsequent abort event. -/
def listenerFires (s : ExtSignal) : Bool := !s.abortedAtCall && s.firesDuringRun

/-- `executeCommand` (lines 100-119) combines the external signal with the
tracker's controller only by registering an abort listener that forwards a
later abort event to `progressContext.abortController.abort()`; it never
reads `options.signal.aborted`. With no independent tracker cancellation,
the internal combined signal becomes aborted during the run iff that
forwarding listener fires. -/
def internalAborted (ext : Option ExtSignal) : Bool :=
  match ext with
  | some s => listenerFires s
  | none => false

/-- Outcome of `_executeOptimizedCommand` (lines 188-269): rejected with an
abort error if the abort listener, the bootstrap-timer check or the
finalize-timer check observes the internal signal aborted; otherwise the
finalize timer runs the execution step (the spawn stand-in producing the
mock result) and resolves successfully. -/
inductive ExecOutcome where
  | aborted
  | success (primitiveRan : Bool)
deriving DecidableEq

/-- The promise outcome of the cache-miss path of `executeCommand` as a
function of the external signal's behaviour. -/
def executeOptimized (ext : Option ExtSignal) : ExecOutcome :=
  if internalAborted ext then .aborted else .success true

/-- The combination semantics stated by the specification: one effective
signal that aborts if either source aborts, immediately reflecting a
signal that is already aborted at combination time. -/
def specCombinedAborted (ext : Option ExtSignal) : Bool :=
  match ext with
  | some s => s.abortedAtCall || s.firesDuringRun
  | none => false

end OptimizedBridge

/-- C1: divergence exhibit. For an external signal already aborted at call
time, the specification's combination semantics mark the effective signal
aborted, but the code's listener-only combination never aborts the
internal signal: the call resolves successfully and the execution
primitive runs instead of rejecting with a cancellation error. -/
theorem OptimizedBridge.preAborted_signal_not_honored :
    OptimizedBridge.executeOptimized (some ⟨true, false⟩)
      = OptimizedBridge.ExecOutcome.success true
    ∧ OptimizedBridge.specCombinedAborted (some ⟨true, false⟩) = true
    ∧ OptimizedBridge.internalAborted (some ⟨true, false⟩) = false :=
  ⟨rfl, rfl, rfl⟩

end Bridge
